import Mathlib

/-!
Verification of the shart-gap peer-to-peer chat core against its
natural-language specification.  The Rust sources (`room.rs`, `user.rs`,
`protocol.rs`, `networking.rs`, `invite.rs`) are shallowly embedded below:

* `HashMap<K, V>` is modelled as an association list (`HMap`) without
  duplicate keys; iteration order of a `HashMap` is arbitrary, and the list
  order stands in for one admissible iteration order.
* `chrono::DateTime<Utc>` is modelled as an `Int` count of milliseconds;
  `chrono::Duration::num_minutes` truncates toward zero, which is `Int.tdiv`.
* `Uuid` and `SocketAddr` are modelled as `Nat` (opaque identities).
* Rust `String` is modelled as `List Char` in the room module and as a byte
  sequence (`List Nat`, values < 256) in the invite module, where the code
  manipulates the UTF-8 representation.
* `u32`/`u64` arithmetic wraps modulo `2 ^ 32` / `2 ^ 64` where the source
  can overflow (release-profile semantics).
-/

/-! ### Association list model of std::collections::HashMap -/

/-- First value bound to key `k` (models `HashMap::get`). -/
def HMap.get : List (Nat × β) → Nat → Option β
  | [], _ => none
  | p :: l, k => if p.1 = k then some p.2 else HMap.get l k

/-- Models `HashMap::contains_key`. -/
def HMap.containsKey (l : List (Nat × β)) (k : Nat) : Bool :=
  (HMap.get l k).isSome

/-- Models `HashMap::insert`: replaces the binding if the key is present,
otherwise appends (one admissible iteration order). -/
def HMap.insert (l : List (Nat × β)) (k : Nat) (v : β) : List (Nat × β) :=
  if HMap.containsKey l k then
    l.map (fun p => if p.1 = k then (p.1, v) else p)
  else
    l ++ [(k, v)]

/-- Models `HashMap::remove` (drops every binding of the key; on the
duplicate-free lists we build there is at most one). -/
def HMap.erase (l : List (Nat × β)) (k : Nat) : List (Nat × β) :=
  l.filter (fun p => p.1 != k)

/-- Models `get_mut` followed by a field update: rewrite the value bound to
`k` in place, leave the list unchanged when the key is absent. -/
def HMap.modify (l : List (Nat × β)) (k : Nat) (f : β → β) : List (Nat × β) :=
  l.map (fun p => if p.1 = k then (p.1, f p.2) else p)

/-! ### Data model (user.rs, networking.rs enums, room.rs) -/

/-- Whole minutes of a millisecond duration, truncated toward zero
(models `chrono::Duration::num_minutes`; Rust integer division truncates
toward zero, which is `Int.tdiv`). -/
def numMinutes (d : Int) : Int := Int.tdiv d 60000

/-- Transport protocol enumeration from networking.rs. -/
inductive Protocol where
  | TCP
  | WebSocket
  | WebRTC
deriving DecidableEq, Repr

/-- User record from user.rs. -/
structure User where
  id : Nat
  name : List Char
  avatar : Option (List Char)
  address : Nat
  audio_input_device : Option (List Char)
  audio_output_device : Option (List Char)
  is_online : Bool
  last_seen : Int
  is_in_call : Bool
deriving DecidableEq, Repr

/-- `User::new` (user.rs): the fresh UUID and the creation instant are
effectful in Rust and appear here as parameters. -/
def User.new (id : Nat) (name : List Char) (address : Nat) (now : Int) : User :=
  { id := id
    name := name
    avatar := none
    address := address
    audio_input_device := none
    audio_output_device := none
    is_online := true
    last_seen := now
    is_in_call := false }

/-- Chat message record from room.rs. -/
structure ChatMessage where
  id : Nat
  user_id : Nat
  user_name : List Char
  content : List Char
  timestamp : Int
deriving DecidableEq, Repr

/-- Room record from room.rs. -/
structure Room where
  id : Nat
  name : List Char
  creator_id : Nat
  users : List (Nat × User)
  messages : List ChatMessage
  server_user_id : Option Nat
  protocol : Protocol
  peer_addresses : List Nat
  ping_measurements : List (Nat × Nat)
  created_at : Int
  is_voice_enabled : Bool
  call_server_id : Option Nat
  is_call_active : Bool
deriving DecidableEq, Repr

/-- `Room::new` (room.rs): fresh room UUID and creation instant are
parameters, as for `User.new`. -/
def Room.new (room_id : Nat) (name : List Char) (creator : User)
    (protocol : Protocol) (now : Int) : Room :=
  { id := room_id
    name := name
    creator_id := creator.id
    users := [(creator.id, creator)]
    messages := []
    server_user_id := some creator.id
    protocol := protocol
    peer_addresses := [creator.address]
    ping_measurements := []
    created_at := now
    is_voice_enabled := false
    call_server_id := some creator.id
    is_call_active := false }

/-- `u64::MAX`, the sentinel compared against in `elect_new_server`. -/
def u64MAX : Nat := 2 ^ 64 - 1

/-- Modulus of `u32` arithmetic. -/
def u32MOD : Nat := 2 ^ 32

/-- `Room::is_ping_recent` (room.rs): despite its name it inspects only the
user's `last_seen` timestamp. -/
def Room.is_ping_recent (room : Room) (now : Int) (user_id : Nat) : Bool :=
  match HMap.get room.users user_id with
  | some user => numMinutes (now - user.last_seen) < 5
  | none => false

/-- `Iterator::min_by_key` on pairs keyed by the second component: returns
the first element attaining the minimum key. -/
def minByKey : List (α × Nat) → Option (α × Nat)
  | [] => none
  | x :: rest =>
    match minByKey rest with
    | none => some x
    | some y => if y.2 < x.2 then some y else some x

/-- The filter applied to `ping_measurements` entries in
`Room::elect_new_server`: user exists, is online, ping below the `u64::MAX`
sentinel, and the ping is recent. -/
def Room.electOk (room : Room) (now : Int) (q : Nat × Nat) : Bool :=
  match HMap.get room.users q.1 with
  | some user => user.is_online && decide (q.2 < u64MAX) && room.is_ping_recent now q.1
  | none => false

/-- `Room::elect_new_server` (room.rs). -/
def Room.elect_new_server (room : Room) (now : Int) : Room :=
  let best_candidate :=
    (minByKey (room.ping_measurements.filter (room.electOk now))).map (fun q => q.1)
  let fallback_candidate :=
    if best_candidate.isNone then
      (room.users.find? (fun p => p.2.is_online)).map (fun p => p.1)
    else none
  { room with server_user_id :=
      match best_candidate with
      | some uid => some uid
      | none => fallback_candidate }

/-- `Room::update_ping` (room.rs): records the measurement, then refreshes
`last_seen` and forces the user online. -/
def Room.update_ping (room : Room) (now : Int) (user_id : Nat) (ping_ms : Nat) : Room :=
  let room1 :=
    { room with ping_measurements := HMap.insert room.ping_measurements user_id ping_ms }
  { room1 with users := HMap.modify room1.users user_id (fun u => { u with last_seen := now, is_online := true }) }

/-- `Room::mark_user_offline` (room.rs): flips the flag, then re-elects when
the incumbent server went offline.  Returns `Ok(())` always; the room value
is the whole observable effect. -/
def Room.mark_user_offline (room : Room) (now : Int) (user_id : Nat) : Room :=
  if HMap.containsKey room.users user_id then
    let room1 := { room with users := HMap.modify room.users user_id (fun u => { u with is_online := false }) }
    if room1.server_user_id = some user_id then room1.elect_new_server now else room1
  else room

/-- `Room::mark_user_online` (room.rs). -/
def Room.mark_user_online (room : Room) (now : Int) (user_id : Nat) : Room :=
  { room with users := HMap.modify room.users user_id (fun u => { u with is_online := true, last_seen := now }) }

/-- `Room::remove_user` (room.rs). -/
def Room.remove_user (room : Room) (now : Int) (user_id : Nat) : Room :=
  match HMap.get room.users user_id with
  | some user =>
    let room1 := { room with
      users := HMap.erase room.users user_id
      peer_addresses := room.peer_addresses.filter (fun a => a != user.address) }
    if room1.server_user_id = some user_id then room1.elect_new_server now else room1
  | none => room

/-- `Room::add_message` (room.rs): push, then drain the front down to the
last 1000 entries. -/
def Room.add_message (room : Room) (message : ChatMessage) : Room :=
  let msgs := room.messages ++ [message]
  { room with messages :=
      if msgs.length > 1000 then msgs.drop (msgs.length - 1000) else msgs }

/-- `Room::check_server_health` (room.rs): the returned `Bool` is the
function's return value, the `Room` its state after the call. -/
def Room.check_server_health (room : Room) (now : Int) : Bool × Room :=
  match room.server_user_id with
  | some server_id =>
    match HMap.get room.users server_id with
    | some server_user =>
      if !server_user.is_online then (false, room.elect_new_server now)
      else if !room.is_ping_recent now server_id then (false, room.elect_new_server now)
      else (true, room)
    | none => (false, room.elect_new_server now)
  | none => (false, room.elect_new_server now)

/-- `Room::cleanup_offline_users` (room.rs): collect stale online users,
mark each offline (possibly re-electing), then prune ping measurements of
users that are offline and stale (or gone). -/
def Room.cleanup_offline_users (room : Room) (now : Int) (threshold : Int) : Room :=
  let toMark := (room.users.filter (fun p =>
      p.2.is_online && decide (numMinutes (now - p.2.last_seen) > threshold))).map (fun p => p.1)
  let room1 := toMark.foldl (fun r uid => r.mark_user_offline now uid) room
  { room1 with ping_measurements := room1.ping_measurements.filter (fun q =>
      match HMap.get room1.users q.1 with
      | some user => user.is_online || decide (numMinutes (now - user.last_seen) < 5)
      | none => false) }

/-! ### Name collision resolution (room.rs) -/

/-- `str::starts_with` on character lists: `startsList s pre` is true when
`s` begins with `pre`. -/
def startsList : List Char → List Char → Bool
  | _, [] => true
  | [], _ :: _ => false
  | c :: s, d :: pre => c = d && startsList s pre

/-- `str::strip_prefix` against the pattern `pre`: the remainder of `s`
after `pre`, when `s` starts with it. -/
def stripLeading (s pre : List Char) : Option (List Char) :=
  if startsList s pre then some (s.drop pre.length) else none

/-- `u32::from_str` (`"…".parse::<u32>()`): an optional leading `'+'`, then
one or more ASCII digits; errors when the decimal value exceeds `u32::MAX`.
Rust accumulates with checked arithmetic, which accepts exactly the decimal
values below `2 ^ 32`. -/
def parseU32 (cs : List Char) : Option Nat :=
  let ds := if cs.head? = some '+' then cs.tail else cs
  if ds = [] then none
  else if ds.all (fun c => 48 ≤ c.toNat && c.toNat ≤ 57) then
    let v := ds.foldl (fun a c => a * 10 + (c.toNat - 48)) 0
    if v < u32MOD then some v else none
  else none

/-- Decimal rendering helper: most-significant digit first, with enough
fuel (`n` itself suffices).  Models the `Display` implementation for
unsigned integers used by `format!`. -/
def natToCharsAux : Nat → Nat → List Char
  | _, 0 => []
  | 0, _ + 1 => []
  | fuel + 1, n + 1 =>
    natToCharsAux fuel ((n + 1) / 10) ++ [Char.ofNat (48 + (n + 1) % 10)]

/-- Decimal rendering of a natural number (`format!("{}", n)`). -/
def natToChars (n : Nat) : List Char :=
  if n = 0 then ['0'] else natToCharsAux n n

/-- The body of the `for existing_name in existing_names` loop of
`Room::resolve_name_collision`: fold one existing name into the running
`highest_suffix`.  The `suffix_num + 1` is `u32` arithmetic and wraps
modulo `2 ^ 32`. -/
def suffixStep (desired_name : List Char) (h : Nat) (name : List Char) : Nat :=
  if startsList name desired_name then
    match stripLeading name (desired_name ++ ['-']) with
    | some suffix_str =>
      match parseU32 suffix_str with
      | some suffix_num => max h ((suffix_num + 1) % u32MOD)
      | none => h
    | none => if name = desired_name then max h 2 else h
  else h

/-- `Room::resolve_name_collision` (room.rs). -/
def Room.resolve_name_collision (room : Room) (desired_name : List Char) : List Char :=
  let existing_names := room.users.map (fun p => p.2.name)
  if !existing_names.any (fun n => n = desired_name) then desired_name
  else
    let highest_suffix := existing_names.foldl (suffixStep desired_name) 1
    desired_name ++ '-' :: natToChars highest_suffix

/-- `Room::add_user` (room.rs).  The `Bool` is success: `false` models the
`Err("User ID already exists in this room")` return, which leaves the room
untouched. -/
def Room.add_user (room : Room) (user : User) : Room × Bool :=
  if HMap.containsKey room.users user.id then (room, false)
  else
    let user1 := { user with name := room.resolve_name_collision user.name }
    let room1 :=
      if !room.peer_addresses.contains user1.address then
        { room with peer_addresses := room.peer_addresses ++ [user1.address] }
      else room
    ({ room1 with users := HMap.insert room1.users user1.id user1 }, true)

/-! ### Protocol switch coordination (protocol.rs) -/

/-- Switch state machine states from protocol.rs. -/
inductive ProtocolSwitchState where
  | Idle
  | Preparing
  | Switching
  | Reconnecting
  | Complete
  | Failed (reason : List Char)
deriving DecidableEq, Repr

/-- True on `Complete` and `Failed(_)`: the `matches!` test used by
`initiate_protocol_switch`, `cleanup_completed_switches` and
`get_active_switches`. -/
def ProtocolSwitchState.isTerminal : ProtocolSwitchState → Bool
  | .Complete => true
  | .Failed _ => true
  | _ => false

/-- Switch progress event from protocol.rs. -/
structure ProtocolSwitchEvent where
  room_id : Nat
  from_protocol : Protocol
  to_protocol : Protocol
  state : ProtocolSwitchState
  affected_peers : List Nat
  timestamp : Int
deriving DecidableEq, Repr

/-- `ProtocolManager` state: the per-room switch map plus the log of events
pushed into the unbounded `event_sender` channel. -/
structure ProtocolManager where
  current_switches : List (Nat × ProtocolSwitchEvent)
  sent_events : List ProtocolSwitchEvent
deriving DecidableEq, Repr

/-- `ProtocolManager::new`. -/
def ProtocolManager.new : ProtocolManager :=
  { current_switches := [], sent_events := [] }

/-- The `anyhow` error strings produced in protocol.rs, as tagged values. -/
inductive ProtoError where
  | switchInProgress (room_id : Nat)
  | prepareFailed (peer : Nat) (msg : List Char)
deriving DecidableEq, Repr

/-- `ProtocolManager::update_switch_state`: rewrite the room's event in
place (no-op when absent) and publish the updated event. -/
def ProtocolManager.update_switch_state (pm : ProtocolManager) (room_id : Nat)
    (new_state : ProtocolSwitchState) (now : Int) : ProtocolManager :=
  match HMap.get pm.current_switches room_id with
  | some switch_event =>
    let ev1 := { switch_event with state := new_state, timestamp := now }
    { current_switches := HMap.insert pm.current_switches room_id ev1
      sent_events := pm.sent_events ++ [ev1] }
  | none => pm

/-- `ProtocolManager::prepare_peers_for_switch`: the first failing
preparation aborts with that peer's error.  `prepOutcome` models the
transport result of `send_preparation_message` (in the current source this
stub always returns `Ok`); `wait_for_peer_acknowledgments` sleeps out its
timeout and returns `Ok`. -/
def prepare_peers_for_switch (prepOutcome : Nat → Except (List Char) Unit) :
    List Nat → Except ProtoError Unit
  | [] => Except.ok ()
  | peer :: rest =>
    match prepOutcome peer with
    | Except.error e => Except.error (ProtoError.prepareFailed peer e)
    | Except.ok () => prepare_peers_for_switch prepOutcome rest

/-- `ProtocolManager::reconnect_peers`: each peer's reconnect outcome is
inspected, logged on failure, and discarded — the function returns `Ok`
unconditionally.  `reconnOutcome` models the transport result of
`reconnect_to_peer` (stubbed `Ok` in the current source). -/
def reconnect_peers (reconnOutcome : Nat → Except (List Char) Unit) :
    List Nat → Except ProtoError Unit
  | [] => Except.ok ()
  | peer :: rest =>
    let _ := reconnOutcome peer
    reconnect_peers reconnOutcome rest

/-- `e.to_string()` for the tagged protocol errors. -/
def ProtoError.msg : ProtoError → List Char
  | .switchInProgress room_id =>
    "Protocol switch already in progress for room ".data ++ natToChars room_id
  | .prepareFailed peer e =>
    "Failed to prepare peer ".data ++ natToChars peer ++ ": ".data ++ e

/-- `ProtocolManager::execute_protocol_switch` (protocol.rs): the four
phases; the sleep between Switching and Reconnecting has no observable
state effect. -/
def ProtocolManager.execute_protocol_switch (pm : ProtocolManager)
    (prepOutcome reconnOutcome : Nat → Except (List Char) Unit)
    (room_id : Nat) (peers : List Nat) (now : Int) :
    ProtocolManager × Except ProtoError Unit :=
  let pm1 := pm.update_switch_state room_id .Preparing now
  match prepare_peers_for_switch prepOutcome peers with
  | Except.error e =>
    (pm1.update_switch_state room_id (.Failed e.msg) now, Except.error e)
  | Except.ok () =>
    let pm2 := pm1.update_switch_state room_id .Switching now
    let pm3 := pm2.update_switch_state room_id .Reconnecting now
    match reconnect_peers reconnOutcome peers with
    | Except.error e =>
      (pm3.update_switch_state room_id (.Failed e.msg) now, Except.error e)
    | Except.ok () =>
      (pm3.update_switch_state room_id .Complete now, Except.ok ())

/-- `ProtocolManager::initiate_protocol_switch` (protocol.rs). -/
def ProtocolManager.initiate_protocol_switch (pm : ProtocolManager)
    (prepOutcome reconnOutcome : Nat → Except (List Char) Unit)
    (room_id : Nat) (from_protocol to_protocol : Protocol)
    (peers : List Nat) (now : Int) : ProtocolManager × Except ProtoError Unit :=
  let blocked :=
    match HMap.get pm.current_switches room_id with
    | some existing_switch => !existing_switch.state.isTerminal
    | none => false
  if blocked then (pm, Except.error (ProtoError.switchInProgress room_id))
  else
    let switch_event : ProtocolSwitchEvent :=
      { room_id := room_id
        from_protocol := from_protocol
        to_protocol := to_protocol
        state := .Preparing
        affected_peers := peers
        timestamp := now }
    let pm1 : ProtocolManager :=
      { current_switches := HMap.insert pm.current_switches room_id switch_event
        sent_events := pm.sent_events ++ [switch_event] }
    pm1.execute_protocol_switch prepOutcome reconnOutcome room_id peers now

/-- `ProtocolManager::get_switch_status`. -/
def ProtocolManager.get_switch_status (pm : ProtocolManager) (room_id : Nat) :
    Option ProtocolSwitchEvent :=
  HMap.get pm.current_switches room_id

/-- `ProtocolManager::cancel_switch` (protocol.rs). -/
def ProtocolManager.cancel_switch (pm : ProtocolManager) (room_id : Nat)
    (now : Int) : ProtocolManager × Except ProtoError Unit :=
  match HMap.get pm.current_switches room_id with
  | some switch_event =>
    let ev1 := { switch_event with
      state := ProtocolSwitchState.Failed "Cancelled by user".data
      timestamp := now }
    ({ current_switches := HMap.insert pm.current_switches room_id ev1
       sent_events := pm.sent_events ++ [ev1] }, Except.ok ())
  | none => (pm, Except.ok ())

/-! ### Per-connection reader loop (networking.rs, NetworkManager::handle_tcp_peer) -/

/-- One read attempt on the framed stream: a complete frame's payload bytes,
or a failure of `read_u32`/`read_exact` (disconnection, short read). -/
inductive FrameEvent where
  | frame (payload : List Nat)
  | readError
deriving DecidableEq, Repr

/-- The reader loop of `NetworkManager::handle_tcp_peer`, returning the
sequence of messages it forwards to the inbound queue.  `parseMsg` composes
`String::from_utf8` and `serde_json::from_str::<NetworkMessage>` (external
library code): `none` means the payload is not valid UTF-8 or not valid
JSON for a `NetworkMessage`.  A `readError` (or end of stream) breaks the
loop; forwarding into the unbounded channel is modelled as succeeding,
since the process holds the receiver. -/
def readerLoop (parseMsg : List Nat → Option μ) : List FrameEvent → List μ
  | [] => []
  | FrameEvent.readError :: _ => []
  | FrameEvent.frame payload :: rest =>
    match parseMsg payload with
    | some message => message :: readerLoop parseMsg rest
    | none => readerLoop parseMsg rest

/-! ### Invite codec (invite.rs) -/

/-- Invite payload record from invite.rs. -/
structure InviteData where
  room_id : Nat
  room_name : List Char
  creator_name : List Char
  peer_addresses : List Nat
  protocol : Protocol
  created_at : Int
deriving DecidableEq, Repr

/-- The URL-safe base64 alphabet of the `base64` crate
(`general_purpose::URL_SAFE_NO_PAD`), as a byte for each sextet. -/
def sextetChar (s : Nat) : Nat :=
  if s < 26 then 65 + s
  else if s < 52 then 97 + (s - 26)
  else if s < 62 then 48 + (s - 52)
  else if s = 62 then 45
  else 95

/-- Inverse of the URL-safe alphabet: `none` on a byte outside it. -/
def charSextet (c : Nat) : Option Nat :=
  if 65 ≤ c ∧ c ≤ 90 then some (c - 65)
  else if 97 ≤ c ∧ c ≤ 122 then some (26 + (c - 97))
  else if 48 ≤ c ∧ c ≤ 57 then some (52 + (c - 48))
  else if c = 45 then some 62
  else if c = 95 then some 63
  else none

/-- Unpadded URL-safe base64 encoding of a byte sequence
(`general_purpose::URL_SAFE_NO_PAD.encode`). -/
def b64Encode : List Nat → List Nat
  | [] => []
  | [b1] => [sextetChar (b1 / 4), sextetChar (b1 % 4 * 16)]
  | [b1, b2] =>
    [sextetChar (b1 / 4), sextetChar (b1 % 4 * 16 + b2 / 16), sextetChar (b2 % 16 * 4)]
  | b1 :: b2 :: b3 :: rest =>
    sextetChar (b1 / 4) :: sextetChar (b1 % 4 * 16 + b2 / 16) ::
      sextetChar (b2 % 16 * 4 + b3 / 64) :: sextetChar (b3 % 64) :: b64Encode rest

/-- Unpadded URL-safe base64 decoding
(`general_purpose::URL_SAFE_NO_PAD.decode`): rejects bytes outside the
alphabet, a trailing chunk of length 1, and non-zero trailing bits. -/
def b64Decode : List Nat → Option (List Nat)
  | [] => some []
  | [_] => none
  | [c1, c2] => do
    let s1 ← charSextet c1
    let s2 ← charSextet c2
    if s2 % 16 = 0 then some [s1 * 4 + s2 / 16] else none
  | [c1, c2, c3] => do
    let s1 ← charSextet c1
    let s2 ← charSextet c2
    let s3 ← charSextet c3
    if s3 % 4 = 0 then some [s1 * 4 + s2 / 16, s2 % 16 * 16 + s3 / 4] else none
  | c1 :: c2 :: c3 :: c4 :: rest => do
    let s1 ← charSextet c1
    let s2 ← charSextet c2
    let s3 ← charSextet c3
    let s4 ← charSextet c4
    let tail ← b64Decode rest
    some ((s1 * 4 + s2 / 16) :: (s2 % 16 * 16 + s3 / 4) :: (s3 % 4 * 64 + s4) :: tail)

/-- A UTF-8 continuation byte. -/
def isUtf8Cont (b : Nat) : Bool := 128 ≤ b && b ≤ 191

/-- UTF-8 validity of a byte sequence, per RFC 3629 — the check performed
by `String::from_utf8`. -/
def utf8Valid : List Nat → Bool
  | [] => true
  | b1 :: rest =>
    if b1 < 128 then utf8Valid rest
    else if 194 ≤ b1 && b1 ≤ 223 then
      match rest with
      | b2 :: rest2 => isUtf8Cont b2 && utf8Valid rest2
      | [] => false
    else if b1 = 224 then
      match rest with
      | b2 :: b3 :: rest2 =>
        (160 ≤ b2 && b2 ≤ 191) && (isUtf8Cont b3 && utf8Valid rest2)
      | _ => false
    else if (225 ≤ b1 && b1 ≤ 236) || (b1 = 238 || b1 = 239) then
      match rest with
      | b2 :: b3 :: rest2 => isUtf8Cont b2 && (isUtf8Cont b3 && utf8Valid rest2)
      | _ => false
    else if b1 = 237 then
      match rest with
      | b2 :: b3 :: rest2 =>
        (128 ≤ b2 && b2 ≤ 159) && (isUtf8Cont b3 && utf8Valid rest2)
      | _ => false
    else if b1 = 240 then
      match rest with
      | b2 :: b3 :: b4 :: rest2 =>
        (144 ≤ b2 && b2 ≤ 191) && (isUtf8Cont b3 && (isUtf8Cont b4 && utf8Valid rest2))
      | _ => false
    else if 241 ≤ b1 && b1 ≤ 243 then
      match rest with
      | b2 :: b3 :: b4 :: rest2 =>
        isUtf8Cont b2 && (isUtf8Cont b3 && (isUtf8Cont b4 && utf8Valid rest2))
      | _ => false
    else if b1 = 244 then
      match rest with
      | b2 :: b3 :: b4 :: rest2 =>
        (128 ≤ b2 && b2 ≤ 143) && (isUtf8Cont b3 && (isUtf8Cont b4 && utf8Valid rest2))
      | _ => false
    else false

/-- `String::from_utf8` with Rust `String` modelled as its byte sequence:
succeeds exactly on valid UTF-8, returning the same bytes. -/
def from_utf8 (bytes : List Nat) : Option (List Nat) :=
  if utf8Valid bytes then some bytes else none

/-- The byte sequence of the literal `"shortgap://"`. -/
def inviteScheme : List Nat := [115, 104, 111, 114, 116, 103, 97, 112, 58, 47, 47]

/-- `str::starts_with` on byte sequences. -/
def startsBytes : List Nat → List Nat → Bool
  | _, [] => true
  | [], _ :: _ => false
  | c :: s, d :: pre => c = d && startsBytes s pre

/-- `InviteData::generate_invite_code` (invite.rs).  `jsonEnc` models
`serde_json::to_string` (external library) composed with `String::as_bytes`;
the rest is the code's own pipeline. -/
def InviteData.generate_invite_code (jsonEnc : InviteData → List Nat)
    (d : InviteData) : List Nat :=
  inviteScheme ++ b64Encode (jsonEnc d)

/-- `InviteData::parse_invite_code` (invite.rs).  `jsonDec` models
`serde_json::from_str::<InviteData>` (external library). -/
def InviteData.parse_invite_code (jsonDec : List Nat → Option InviteData)
    (invite_code : List Nat) : Option InviteData :=
  let code :=
    if startsBytes invite_code inviteScheme then invite_code.drop inviteScheme.length
    else invite_code
  match b64Decode code with
  | none => none
  | some decoded_bytes =>
    match from_utf8 decoded_bytes with
    | none => none
    | some json_data => jsonDec json_data

/-- The invariant of claim C2: an assigned server id keys an online entry
of the users map. -/
def Room.ServerOk (room : Room) : Prop :=
  ∀ id, room.server_user_id = some id →
    ∃ u, HMap.get room.users id = some u ∧ u.is_online = true

/-- Keys of the users map are duplicate-free (automatic for a `HashMap`,
maintained explicitly for the association-list model). -/
def Room.KeysOk (room : Room) : Prop :=
  (room.users.map Prod.fst).Nodup

/-- Rooms reachable from `Room::new` by the public operations of claim C2.
The creator passed to `Room::new` is built by `User::new` (the only `User`
constructor in the program), hence starts online. -/
inductive Reachable : Room → Prop where
  | new : ∀ room_id name uid uname addr t0 proto now,
      Reachable (Room.new room_id name (User.new uid uname addr t0) proto now)
  | add_user : ∀ room u, Reachable room → Reachable (room.add_user u).1
  | remove_user : ∀ room now uid, Reachable room → Reachable (room.remove_user now uid)
  | add_message : ∀ room m, Reachable room → Reachable (room.add_message m)
  | update_ping : ∀ room now uid ping, Reachable room →
      Reachable (room.update_ping now uid ping)
  | mark_user_offline : ∀ room now uid, Reachable room →
      Reachable (room.mark_user_offline now uid)
  | mark_user_online : ∀ room now uid, Reachable room →
      Reachable (room.mark_user_online now uid)
  | cleanup_offline_users : ∀ room now threshold, Reachable room →
      Reachable (room.cleanup_offline_users now threshold)
  | check_server_health : ∀ room now, Reachable room →
      Reachable (room.check_server_health now).2
  | elect_new_server : ∀ room now, Reachable room →
      Reachable (room.elect_new_server now)

/-! ### General lemmas about the HashMap model -/

theorem HMap.get_append_left (l m : List (Nat × β)) (k : Nat) (v : β)
    (h : HMap.get l k = some v) : HMap.get (l ++ m) k = some v := by
  induction l with
  | nil => simp [HMap.get] at h
  | cons p l ih =>
    by_cases hp : p.1 = k
    · simpa [HMap.get, hp] using h
    · simp only [HMap.get, hp, if_neg, List.cons_append] at *
      exact ih h

theorem HMap.get_append (l m : List (Nat × β)) (k : Nat) :
    HMap.get (l ++ m) k =
      match HMap.get l k with
      | some v => some v
      | none => HMap.get m k := by
  induction l with
  | nil => simp [HMap.get]
  | cons p l ih =>
    by_cases hp : p.1 = k <;> simp [HMap.get, hp, ih]

theorem HMap.get_modify (l : List (Nat × β)) (k k' : Nat) (f : β → β) :
    HMap.get (HMap.modify l k f) k' =
      if k' = k then (HMap.get l k').map f else HMap.get l k' := by
  induction l with
  | nil => by_cases h : k' = k <;> simp [HMap.modify, HMap.get, h]
  | cons p l ih =>
    simp only [HMap.modify, List.map_cons] at *
    by_cases hp : p.1 = k
    · by_cases hpk : p.1 = k'
      · have hk : k' = k := by omega
        simp [HMap.get, hp, hpk, hk]
      · have hk : ¬ k' = k := by omega
        have hk2 : ¬ k = k' := by omega
        simp [HMap.get, hp, hpk, hk, hk2, ih]
    · by_cases hpk : p.1 = k'
      · have hk : ¬ k' = k := by omega
        simp [HMap.get, hp, hpk, hk]
      · simp [HMap.get, hp, hpk, ih]

theorem HMap.get_erase (l : List (Nat × β)) (k k' : Nat) :
    HMap.get (HMap.erase l k) k' =
      if k' = k then none else HMap.get l k' := by
  induction l with
  | nil => by_cases h : k' = k <;> simp [HMap.erase, HMap.get, h]
  | cons p l ih =>
    simp only [HMap.erase, List.filter_cons] at *
    by_cases hp : p.1 = k
    · have h1 : (p.1 != k) = false := by simp [hp]
      by_cases hk : k' = k
      · subst hk
        simp [h1, ih]
      · have hpk : ¬ p.1 = k' := by omega
        simp [h1, ih, hk, HMap.get, hpk]
    · have h1 : (p.1 != k) = true := by simp [hp]
      by_cases hpk : p.1 = k'
      · have hk : ¬ k' = k := by omega
        simp [h1, HMap.get, hpk, hk]
      · simp [h1, HMap.get, hpk, ih]

/-! ### C8 — message sliding window -/

/-- Claim C8: for every Room and message, `add_message` appends the message
and keeps at most 1000 messages, evicting only the oldest entries (the
result is a suffix of the appended list of length `min (old + 1) 1000`,
computed by dropping `old + 1 - 1000` oldest entries); the newly added
message is always retained as the last entry.  In particular a 1001st
message drops exactly the oldest one. -/
theorem add_message_sliding_window (room : Room) (m : ChatMessage) :
    (room.add_message m).messages =
      (room.messages ++ [m]).drop (room.messages.length + 1 - 1000)
    ∧ (room.add_message m).messages.length = min (room.messages.length + 1) 1000
    ∧ (room.add_message m).messages <:+ (room.messages ++ [m])
    ∧ (room.add_message m).messages.getLast? = some m := by
  have hlen : (room.messages ++ [m]).length = room.messages.length + 1 := by
    simp
  constructor
  · simp only [Room.add_message, hlen]
    by_cases h : room.messages.length + 1 > 1000
    · simp [h]
    · have h0 : room.messages.length + 1 - 1000 = 0 := by omega
      simp [h, h0]
  · constructor
    · simp only [Room.add_message, hlen]
      by_cases h : room.messages.length + 1 > 1000
      · simp only [if_pos h, List.length_drop, hlen]
        omega
      · simp only [if_neg h, hlen]
        omega
    · constructor
      · simp only [Room.add_message, hlen]
        by_cases h : room.messages.length + 1 > 1000
        · simp only [if_pos h]
          exact List.drop_suffix _ _
        · simp only [if_neg h]
          exact List.suffix_refl _
      · simp only [Room.add_message, hlen]
        by_cases h : room.messages.length + 1 > 1000
        · simp only [if_pos h]
          rw [List.drop_append_of_le_length (by omega)]
          simp
        · simp [if_neg h]

/-! ### C7 — server health check -/

/-- Claim C7: `check_server_health` returns true iff a server is assigned,
its user record exists, the user is online, and its ping is recent within
5 minutes; on any failing condition it invokes `elect_new_server` and
returns false; when it returns true the room (hence `server_user_id`) is
left unchanged. -/
theorem check_server_health_ok (room : Room) (now : Int) :
    ((room.check_server_health now).1 = true ↔
      ∃ server_id user, room.server_user_id = some server_id ∧
        HMap.get room.users server_id = some user ∧
        user.is_online = true ∧ room.is_ping_recent now server_id = true)
    ∧ ((room.check_server_health now).1 = true →
        (room.check_server_health now).2 = room)
    ∧ ((room.check_server_health now).1 = false →
        (room.check_server_health now).2 = room.elect_new_server now) := by
  cases hs : room.server_user_id with
  | none =>
    simp only [Room.check_server_health, hs]
    refine ⟨⟨fun h => by simp at h, ?_⟩, by simp, by simp⟩
    rintro ⟨sid, u, hsid, -⟩
    cases hsid
  | some server_id =>
    cases hu : HMap.get room.users server_id with
    | none =>
      simp only [Room.check_server_health, hs, hu]
      refine ⟨⟨fun h => by simp at h, ?_⟩, by simp, by simp⟩
      rintro ⟨sid, u, hsid, hget, -⟩
      cases hsid
      rw [hu] at hget
      cases hget
    | some server_user =>
      cases hon : server_user.is_online with
      | false =>
        have hcv : room.check_server_health now = (false, room.elect_new_server now) := by
          simp [Room.check_server_health, hs, hu, hon]
        simp only [hcv]
        refine ⟨⟨fun h => by simp at h, ?_⟩, by simp, by simp⟩
        rintro ⟨sid, u, hsid, hget, ho, -⟩
        cases hsid
        rw [hu] at hget
        have hue : server_user = u := by injection hget
        rw [← hue, hon] at ho
        exact absurd ho (by simp)
      | true =>
        cases hrec : room.is_ping_recent now server_id with
        | false =>
          have hcv : room.check_server_health now = (false, room.elect_new_server now) := by
            simp [Room.check_server_health, hs, hu, hon, hrec]
          simp only [hcv]
          refine ⟨⟨fun h => by simp at h, ?_⟩, by simp, by simp⟩
          rintro ⟨sid, u, hsid, hget, ho, hr⟩
          cases hsid
          rw [hrec] at hr
          exact absurd hr (by simp)
        | true =>
          have hcv : room.check_server_health now = (true, room) := by
            simp [Room.check_server_health, hs, hu, hon, hrec]
          simp only [hcv]
          refine ⟨⟨fun _ => ?_, fun _ => by trivial⟩, by simp, by simp⟩
          exact ⟨server_id, server_user, rfl, hu, hon, hrec⟩

/-! ### Protocol manager lemmas and claims C10, C4, C6 -/

theorem HMap.get_insert_self (l : List (Nat × β)) (k : Nat) (v : β) :
    HMap.get (HMap.insert l k v) k = some v := by
  unfold HMap.insert
  by_cases h : HMap.containsKey l k
  · simp only [h, if_true]
    unfold HMap.containsKey at h
    induction l with
    | nil => simp [HMap.get] at h
    | cons p l ih =>
      by_cases hp : p.1 = k
      · simp [HMap.get, hp]
      · simp only [HMap.get, hp, if_neg, Option.isSome] at h
        simp only [List.map_cons, if_neg hp]
        simp only [HMap.get, hp, if_neg]
        exact ih h
  · simp only [h, if_false]
    unfold HMap.containsKey at h
    induction l with
    | nil => simp [HMap.get]
    | cons p l ih =>
      by_cases hp : p.1 = k
      · simp [HMap.get, hp] at h
      · simp only [List.cons_append, HMap.get, hp, if_neg]
        simp only [HMap.get, hp, if_neg] at h
        exact ih h

theorem reconnect_peers_ok (reconnOutcome : Nat → Except (List Char) Unit)
    (peers : List Nat) : reconnect_peers reconnOutcome peers = Except.ok () := by
  induction peers with
  | nil => rfl
  | cons p rest ih => simpa [reconnect_peers] using ih

theorem prepare_peers_cases (prepOutcome : Nat → Except (List Char) Unit)
    (peers : List Nat) :
    prepare_peers_for_switch prepOutcome peers = Except.ok ()
    ∨ ∃ p e, prepare_peers_for_switch prepOutcome peers =
        Except.error (ProtoError.prepareFailed p e) := by
  induction peers with
  | nil => exact Or.inl rfl
  | cons p rest ih =>
    cases hp : prepOutcome p with
    | error e =>
      exact Or.inr ⟨p, e, by simp [prepare_peers_for_switch, hp]⟩
    | ok u =>
      cases u
      simpa [prepare_peers_for_switch, hp] using ih

theorem get_update_switch_state (pm : ProtocolManager) (room_id : Nat)
    (st : ProtocolSwitchState) (now : Int) (ev : ProtocolSwitchEvent)
    (hev : HMap.get pm.current_switches room_id = some ev) :
    HMap.get (pm.update_switch_state room_id st now).current_switches room_id =
      some { ev with state := st, timestamp := now } := by
  simp only [ProtocolManager.update_switch_state, hev]
  exact HMap.get_insert_self _ _ _

/-- Claim C10: `cancel_switch` always returns Ok; with no recorded switch it
changes nothing; with a recorded switch — in any state, terminal
`Complete`/`Failed` included — it overwrites the state to
`Failed("Cancelled by user")`, refreshes the timestamp, and publishes the
updated event. -/
theorem cancel_switch_ok (pm : ProtocolManager) (room_id : Nat) (now : Int) :
    (pm.cancel_switch room_id now).2 = Except.ok ()
    ∧ (HMap.get pm.current_switches room_id = none →
        (pm.cancel_switch room_id now).1 = pm)
    ∧ (∀ ev, HMap.get pm.current_switches room_id = some ev →
        HMap.get (pm.cancel_switch room_id now).1.current_switches room_id =
          some { ev with state := ProtocolSwitchState.Failed "Cancelled by user".data, timestamp := now }
        ∧ (pm.cancel_switch room_id now).1.sent_events =
            pm.sent_events ++
              [{ ev with state := ProtocolSwitchState.Failed "Cancelled by user".data, timestamp := now }]) := by
  refine ⟨?_, ?_, ?_⟩
  · unfold ProtocolManager.cancel_switch
    cases h : HMap.get pm.current_switches room_id <;> simp [h]
  · intro h
    simp [ProtocolManager.cancel_switch, h]
  · intro ev h
    simp only [ProtocolManager.cancel_switch, h]
    exact ⟨HMap.get_insert_self _ _ _, by trivial⟩

/-- Witness for C10: cancelling a switch that already reached `Complete`
retroactively marks it `Failed("Cancelled by user")`. -/
theorem cancel_switch_ok_witness :
    HMap.get ((ProtocolManager.cancel_switch { current_switches := [(1, { room_id := 1, from_protocol := Protocol.TCP, to_protocol := Protocol.WebRTC, state := ProtocolSwitchState.Complete, affected_peers := [7], timestamp := 5 })], sent_events := [] } 1 9).1).current_switches 1 =
      some { room_id := 1, from_protocol := Protocol.TCP, to_protocol := Protocol.WebRTC, state := ProtocolSwitchState.Failed "Cancelled by user".data, affected_peers := [7], timestamp := 9 } :=
  ((cancel_switch_ok { current_switches := [(1, { room_id := 1, from_protocol := Protocol.TCP, to_protocol := Protocol.WebRTC, state := ProtocolSwitchState.Complete, affected_peers := [7], timestamp := 5 })], sent_events := [] } 1 9).2.2
    { room_id := 1, from_protocol := Protocol.TCP, to_protocol := Protocol.WebRTC, state := ProtocolSwitchState.Complete, affected_peers := [7], timestamp := 5 } (by decide)).1

theorem execute_switch_snd (pm : ProtocolManager)
    (prepOutcome reconnOutcome : Nat → Except (List Char) Unit)
    (room_id : Nat) (peers : List Nat) (now : Int) :
    (pm.execute_protocol_switch prepOutcome reconnOutcome room_id peers now).2 = Except.ok ()
    ∨ ∃ p e, (pm.execute_protocol_switch prepOutcome reconnOutcome room_id peers now).2 =
        Except.error (ProtoError.prepareFailed p e) := by
  rcases prepare_peers_cases prepOutcome peers with h | ⟨p, e, h⟩
  · left
    simp [ProtocolManager.execute_protocol_switch, h, reconnect_peers_ok]
  · right
    exact ⟨p, e, by simp [ProtocolManager.execute_protocol_switch, h]⟩

/-- Claim C4: `initiate_protocol_switch` returns the SwitchInProgress error
and leaves the manager unchanged (no side effects) exactly when the room's
recorded switch exists in a non-terminal state; when the prior switch is
terminal (`Complete`/`Failed`) or absent, the call never fails with
SwitchInProgress. -/
theorem initiate_switch_single_flight (pm : ProtocolManager)
    (prepOutcome reconnOutcome : Nat → Except (List Char) Unit)
    (room_id : Nat) (fp tp : Protocol) (peers : List Nat) (now : Int) :
    (∀ ev, HMap.get pm.current_switches room_id = some ev →
      ev.state.isTerminal = false →
      pm.initiate_protocol_switch prepOutcome reconnOutcome room_id fp tp peers now
        = (pm, Except.error (ProtoError.switchInProgress room_id)))
    ∧ ((HMap.get pm.current_switches room_id = none
        ∨ ∃ ev, HMap.get pm.current_switches room_id = some ev ∧ ev.state.isTerminal = true) →
      (pm.initiate_protocol_switch prepOutcome reconnOutcome room_id fp tp peers now).2
        ≠ Except.error (ProtoError.switchInProgress room_id)) := by
  constructor
  · intro ev hev hterm
    simp [ProtocolManager.initiate_protocol_switch, hev, hterm]
  · intro h
    have hnb : (match HMap.get pm.current_switches room_id with
        | some existing_switch => !existing_switch.state.isTerminal
        | none => false) = false := by
      rcases h with h | ⟨ev, hev, hterm⟩
      · simp [h]
      · simp [hev, hterm]
    simp only [ProtocolManager.initiate_protocol_switch, hnb, Bool.false_eq_true, if_false]
    rcases execute_switch_snd
        { current_switches := HMap.insert pm.current_switches room_id
            { room_id := room_id, from_protocol := fp, to_protocol := tp
              state := ProtocolSwitchState.Preparing, affected_peers := peers, timestamp := now }
          sent_events := pm.sent_events ++
            [{ room_id := room_id, from_protocol := fp, to_protocol := tp
               state := ProtocolSwitchState.Preparing, affected_peers := peers, timestamp := now }] }
        prepOutcome reconnOutcome room_id peers now with hr | ⟨p, e, hr⟩
    · rw [hr]
      intro hc
      cases hc
    · rw [hr]
      intro hc
      injection hc with hc2
      cases hc2

/-- Witness for C4: a manager whose room-1 switch is still `Switching`
rejects a second initiation with SwitchInProgress and is left unchanged. -/
theorem initiate_switch_single_flight_witness :
    ProtocolManager.initiate_protocol_switch
      { current_switches := [(1, { room_id := 1, from_protocol := Protocol.TCP, to_protocol := Protocol.WebRTC, state := ProtocolSwitchState.Switching, affected_peers := [7], timestamp := 5 })], sent_events := [] }
      (fun _ => Except.ok ()) (fun _ => Except.ok ()) 1 Protocol.TCP Protocol.WebSocket [7] 6
    = ({ current_switches := [(1, { room_id := 1, from_protocol := Protocol.TCP, to_protocol := Protocol.WebRTC, state := ProtocolSwitchState.Switching, affected_peers := [7], timestamp := 5 })], sent_events := [] },
       Except.error (ProtoError.switchInProgress 1)) :=
  (initiate_switch_single_flight
      { current_switches := [(1, { room_id := 1, from_protocol := Protocol.TCP, to_protocol := Protocol.WebRTC, state := ProtocolSwitchState.Switching, affected_peers := [7], timestamp := 5 })], sent_events := [] }
      (fun _ => Except.ok ()) (fun _ => Except.ok ()) 1 Protocol.TCP Protocol.WebSocket [7] 6).1
    { room_id := 1, from_protocol := Protocol.TCP, to_protocol := Protocol.WebRTC, state := ProtocolSwitchState.Switching, affected_peers := [7], timestamp := 5 }
    (by decide) (by decide)

/-- Claim C6 (amended): during the Reconnecting phase a single peer's
reconnect failure does not abort the switch — `reconnect_peers` inspects
and discards every per-peer outcome and returns Ok unconditionally — so
once preparation succeeded the switch always reaches `Complete`, even when
reconnection fails for all affected peers (it never reaches `Failed` from
this phase). -/
theorem reconnect_best_effort (pm : ProtocolManager)
    (prepOutcome reconnOutcome : Nat → Except (List Char) Unit)
    (room_id : Nat) (peers : List Nat) (now : Int) (ev : ProtocolSwitchEvent)
    (hprep : prepare_peers_for_switch prepOutcome peers = Except.ok ())
    (hev : HMap.get pm.current_switches room_id = some ev) :
    reconnect_peers reconnOutcome peers = Except.ok ()
    ∧ (pm.execute_protocol_switch prepOutcome reconnOutcome room_id peers now).2 = Except.ok ()
    ∧ HMap.get (pm.execute_protocol_switch prepOutcome reconnOutcome room_id peers now).1.current_switches room_id
        = some { ev with state := ProtocolSwitchState.Complete, timestamp := now } := by
  refine ⟨reconnect_peers_ok _ _, ?_, ?_⟩
  · simp [ProtocolManager.execute_protocol_switch, hprep, reconnect_peers_ok]
  · simp only [ProtocolManager.execute_protocol_switch, hprep, reconnect_peers_ok]
    have h1 := get_update_switch_state pm room_id ProtocolSwitchState.Preparing now ev hev
    have h2 := get_update_switch_state _ room_id ProtocolSwitchState.Switching now _ h1
    have h3 := get_update_switch_state _ room_id ProtocolSwitchState.Reconnecting now _ h2
    have h4 := get_update_switch_state _ room_id ProtocolSwitchState.Complete now _ h3
    exact h4

/-- Witness for C6 (amended): with one peer whose reconnect outcome fails,
the switch still completes. -/
theorem reconnect_best_effort_witness :
    HMap.get ((ProtocolManager.execute_protocol_switch
        { current_switches := [(1, { room_id := 1, from_protocol := Protocol.TCP, to_protocol := Protocol.WebRTC, state := ProtocolSwitchState.Preparing, affected_peers := [5, 6], timestamp := 2 })], sent_events := [] }
        (fun _ => Except.ok ()) (fun p => if p = 5 then Except.error ['x'] else Except.ok ())
        1 [5, 6] 3).1).current_switches 1
      = some { room_id := 1, from_protocol := Protocol.TCP, to_protocol := Protocol.WebRTC, state := ProtocolSwitchState.Complete, affected_peers := [5, 6], timestamp := 3 } :=
  (reconnect_best_effort
      { current_switches := [(1, { room_id := 1, from_protocol := Protocol.TCP, to_protocol := Protocol.WebRTC, state := ProtocolSwitchState.Preparing, affected_peers := [5, 6], timestamp := 2 })], sent_events := [] }
      (fun _ => Except.ok ()) (fun p => if p = 5 then Except.error ['x'] else Except.ok ())
      1 [5, 6] 3
      { room_id := 1, from_protocol := Protocol.TCP, to_protocol := Protocol.WebRTC, state := ProtocolSwitchState.Preparing, affected_peers := [5, 6], timestamp := 2 }
      (by rfl) (by decide)).2.2

/-- Counterexample to C6 as stated: a switch over peers 7 and 8 whose
reconnect outcome fails for every affected peer still ends in `Complete`,
not `Failed` — `reconnect_peers` returns Ok regardless of the individual
outcomes, so the "if all peers fail the switch reaches Failed" part of the
claim is false on the code. -/
theorem reconnect_all_fail_complete_cex :
    (((ProtocolManager.new.initiate_protocol_switch (fun _ => Except.ok ())
        (fun _ => Except.error ['n', 'o']) 1 Protocol.TCP Protocol.WebRTC
        [7, 8] 0).1.get_switch_status 1).map ProtocolSwitchEvent.state)
      = some ProtocolSwitchState.Complete := by decide

/-! ### C5 — reader loop error handling -/

/-- Claim C5 (amended): the reader loop of `handle_tcp_peer` does not stop
at a malformed frame — a payload that is not valid UTF-8 or not valid JSON
is logged and skipped, and the loop continues; only a read error (or end of
stream) terminates it.  The messages delivered to the inbound queue are
exactly the parseable frames read before the first read error. -/
theorem readerLoop_skips_malformed (parseMsg : List Nat → Option μ)
    (events : List FrameEvent) :
    readerLoop parseMsg events =
      (events.takeWhile (fun e => match e with
        | FrameEvent.readError => false
        | FrameEvent.frame _ => true)).filterMap
        (fun e => match e with
          | FrameEvent.frame payload => parseMsg payload
          | FrameEvent.readError => none) := by
  induction events with
  | nil => rfl
  | cons e rest ih =>
    cases e with
    | readError => rfl
    | frame payload =>
      cases hp : parseMsg payload with
      | none => simpa [readerLoop, List.takeWhile_cons, List.filterMap_cons, hp] using ih
      | some message => simpa [readerLoop, List.takeWhile_cons, List.filterMap_cons, hp] using ih

/-- Counterexample to C5 as stated: a stream whose first frame `[0]` fails
to parse and whose second frame `[1]` parses.  Per the claim the loop dies
at the first malformed frame and delivers nothing; the code skips the bad
frame and still delivers the message of the later frame. -/
theorem readerLoop_malformed_cex :
    readerLoop (fun bs => if bs = [0] then none else some ())
        [FrameEvent.frame [0], FrameEvent.frame [1]] = [()]
    ∧ readerLoop (fun bs => if bs = [0] then none else some ())
        [FrameEvent.frame [0], FrameEvent.frame [1]] ≠ ([] : List Unit) := by
  constructor
  · rfl
  · intro h
    cases h

/-! ### C1 — server election -/

theorem minByKey_spec (l : List (α × Nat)) (x : α × Nat) :
    ∃ q, minByKey (x :: l) = some q ∧ q ∈ x :: l ∧ ∀ r ∈ x :: l, q.2 ≤ r.2 := by
  induction l generalizing x with
  | nil =>
    refine ⟨x, rfl, by simp, ?_⟩
    intro r hr
    simp at hr
    simp [hr]
  | cons y rest ih =>
    obtain ⟨q, hq, hmem, hall⟩ := ih y
    have hunf : minByKey (x :: y :: rest) =
        match minByKey (y :: rest) with
        | none => some x
        | some w => if w.2 < x.2 then some w else some x := rfl
    rw [hq] at hunf
    by_cases h : q.2 < x.2
    · refine ⟨q, by rw [hunf]; simp [h], List.mem_cons_of_mem x hmem, ?_⟩
      intro r hr
      rcases List.mem_cons.1 hr with hr | hr
      · subst hr
        exact le_of_lt h
      · exact hall r hr
    · refine ⟨x, by rw [hunf]; simp [h], List.mem_cons_self x _, ?_⟩
      intro r hr
      rcases List.mem_cons.1 hr with hr | hr
      · subst hr
        exact le_refl _
      · exact le_trans (Nat.le_of_not_lt h) (hall r hr)

theorem elect_new_server_server (room : Room) (now : Int) :
    (room.elect_new_server now).server_user_id =
      match minByKey (room.ping_measurements.filter (room.electOk now)) with
      | some q => some q.1
      | none => (room.users.find? (fun p => p.2.is_online)).map (fun p => p.1) := by
  unfold Room.elect_new_server
  cases h : minByKey (room.ping_measurements.filter (room.electOk now)) with
  | some q => simp [h]
  | none => simp [h]

/-- Claim C1 (amended): `elect_new_server` sets `server_user_id` to the id
of a user with the minimum ping among candidates that are (a) online,
(b) present in `ping_measurements` with a measured ping strictly below the
`u64::MAX` sentinel, and (c) recently seen within 5 minutes (the filter
`electOk`); if no such candidate exists it picks some online user; with no
online user it clears the slot.  The concrete 50/30/100 ms scenario of the
claim holds: the 30 ms user wins, marking winners offline re-elects
by lowest remaining ping, and with everyone offline no server remains. -/
theorem elect_new_server_ok (room : Room) (now : Int) :
    (room.ping_measurements.filter (room.electOk now) ≠ [] →
      ∃ q, q ∈ room.ping_measurements.filter (room.electOk now)
        ∧ (room.elect_new_server now).server_user_id = some q.1
        ∧ ∀ r ∈ room.ping_measurements.filter (room.electOk now), q.2 ≤ r.2)
    ∧ (room.ping_measurements.filter (room.electOk now) = [] →
        ((∃ p ∈ room.users, p.2.is_online = true) →
          ∃ p, p ∈ room.users ∧ p.2.is_online = true
            ∧ (room.elect_new_server now).server_user_id = some p.1)
        ∧ ((∀ p ∈ room.users, p.2.is_online = false) →
          (room.elect_new_server now).server_user_id = none))
    ∧ (let r0 := Room.new 100 ['R'] (User.new 1 ['A'] 10 0) Protocol.TCP 0
       let r1 := (r0.add_user (User.new 2 ['B'] 11 0)).1
       let r2 := (r1.add_user (User.new 3 ['C'] 12 0)).1
       let r3 := ((r2.update_ping 0 1 50).update_ping 0 2 30).update_ping 0 3 100
       let r4 := r3.elect_new_server 0
       let r5 := r4.mark_user_offline 0 2
       let r6 := r5.mark_user_offline 0 1
       let r7 := r6.mark_user_offline 0 3
       r4.server_user_id = some 2 ∧ r5.server_user_id = some 1
         ∧ r6.server_user_id = some 3 ∧ r7.server_user_id = none) := by
  refine ⟨?_, ?_, by decide⟩
  · intro hne
    rcases hc : room.ping_measurements.filter (room.electOk now) with _ | ⟨x, l'⟩
    · exact absurd hc hne
    · obtain ⟨q, hq, hmem, hall⟩ := minByKey_spec l' x
      refine ⟨q, hmem, ?_, hall⟩
      rw [elect_new_server_server, hc, hq]
  · intro hc
    constructor
    · rintro ⟨p, hp, hon⟩
      cases hf : room.users.find? (fun p => p.2.is_online) with
      | none =>
        have := List.find?_eq_none.1 hf p hp
        simp [hon] at this
      | some w =>
        refine ⟨w, List.mem_of_find?_eq_some hf, by simpa using List.find?_some hf, ?_⟩
        rw [elect_new_server_server, hc]
        simp [minByKey, hf]
    · intro hall
      have hf : room.users.find? (fun p => p.2.is_online) = none := by
        apply List.find?_eq_none.2
        intro p hp
        simp [hall p hp]
      rw [elect_new_server_server, hc]
      simp [minByKey, hf]

/-- Witness for C1 (amended): a room whose single measurement `(1, 42)`
passes the candidate filter elects user 1; a room whose only user is
offline ends with no server. -/
theorem elect_new_server_ok_witness :
    (Room.elect_new_server ({ id := 0, name := [], creator_id := 1, users := [(1, User.new 1 ['A'] 10 0)], messages := [], server_user_id := none, protocol := Protocol.TCP, peer_addresses := [], ping_measurements := [(1, 42)], created_at := 0, is_voice_enabled := false, call_server_id := none, is_call_active := false } : Room) 0).server_user_id = some 1
    ∧ (Room.elect_new_server ({ id := 0, name := [], creator_id := 1, users := [(1, { User.new 1 ['A'] 10 0 with is_online := false })], messages := [], server_user_id := some 1, protocol := Protocol.TCP, peer_addresses := [], ping_measurements := [], created_at := 0, is_voice_enabled := false, call_server_id := none, is_call_active := false } : Room) 0).server_user_id = none := by
  constructor
  · obtain ⟨q, hqmem, hsrv, -⟩ := (elect_new_server_ok ({ id := 0, name := [], creator_id := 1, users := [(1, User.new 1 ['A'] 10 0)], messages := [], server_user_id := none, protocol := Protocol.TCP, peer_addresses := [], ping_measurements := [(1, 42)], created_at := 0, is_voice_enabled := false, call_server_id := none, is_call_active := false } : Room) 0).1 (by decide)
    have h12 : (Room.ping_measurements ({ id := 0, name := [], creator_id := 1, users := [(1, User.new 1 ['A'] 10 0)], messages := [], server_user_id := none, protocol := Protocol.TCP, peer_addresses := [], ping_measurements := [(1, 42)], created_at := 0, is_voice_enabled := false, call_server_id := none, is_call_active := false } : Room)).filter (Room.electOk ({ id := 0, name := [], creator_id := 1, users := [(1, User.new 1 ['A'] 10 0)], messages := [], server_user_id := none, protocol := Protocol.TCP, peer_addresses := [], ping_measurements := [(1, 42)], created_at := 0, is_voice_enabled := false, call_server_id := none, is_call_active := false } : Room) 0) = [(1, 42)] := by decide
    rw [h12] at hqmem
    have hq1 : q = (1, 42) := by simpa using hqmem
    rw [hq1] at hsrv
    exact hsrv
  · exact ((elect_new_server_ok ({ id := 0, name := [], creator_id := 1, users := [(1, { User.new 1 ['A'] 10 0 with is_online := false })], messages := [], server_user_id := some 1, protocol := Protocol.TCP, peer_addresses := [], ping_measurements := [], created_at := 0, is_voice_enabled := false, call_server_id := none, is_call_active := false } : Room) 0).2.1 (by decide)).2 (by decide)

/-- Counterexample to C1 as stated: in this room user 2 is online, recently
seen, and present in `ping_measurements` — the unique candidate under the
claim's conditions (a), (b), (c), so the claim requires electing user 2.
Its measured ping is `u64::MAX`, which the code's extra `ping < u64::MAX`
filter rejects, so the code falls back to "any online user" and elects
user 1, who has no ping measurement at all. -/
theorem elect_new_server_cex :
    (Room.elect_new_server { id := 0, name := [], creator_id := 1, users := [(1, User.new 1 ['B'] 11 0), (2, User.new 2 ['A'] 12 0)], messages := [], server_user_id := none, protocol := Protocol.TCP, peer_addresses := [], ping_measurements := [(2, u64MAX)], created_at := 0, is_voice_enabled := false, call_server_id := none, is_call_active := false } 0).server_user_id = some 1
    ∧ some (1 : Nat) ≠ some (2 : Nat)
    ∧ HMap.get (Room.users { id := 0, name := [], creator_id := 1, users := [(1, User.new 1 ['B'] 11 0), (2, User.new 2 ['A'] 12 0)], messages := [], server_user_id := none, protocol := Protocol.TCP, peer_addresses := [], ping_measurements := [(2, u64MAX)], created_at := 0, is_voice_enabled := false, call_server_id := none, is_call_active := false }) 2 = some (User.new 2 ['A'] 12 0)
    ∧ (User.new 2 ['A'] 12 0).is_online = true
    ∧ HMap.get [(2, u64MAX)] 2 = some u64MAX
    ∧ Room.is_ping_recent { id := 0, name := [], creator_id := 1, users := [(1, User.new 1 ['B'] 11 0), (2, User.new 2 ['A'] 12 0)], messages := [], server_user_id := none, protocol := Protocol.TCP, peer_addresses := [], ping_measurements := [(2, u64MAX)], created_at := 0, is_voice_enabled := false, call_server_id := none, is_call_active := false } 0 2 = true
    ∧ HMap.get [(2, u64MAX)] 1 = (none : Option Nat) := by decide

/-! ### C2 — server invariant over reachable rooms -/

theorem HMap.get_none_iff (l : List (Nat × β)) (k : Nat) :
    HMap.get l k = none ↔ k ∉ l.map Prod.fst := by
  induction l with
  | nil => simp [HMap.get]
  | cons p l ih =>
    by_cases hp : p.1 = k
    · simp [HMap.get, hp]
    · rw [show HMap.get (p :: l) k = HMap.get l k from by simp [HMap.get, hp]]
      rw [ih]
      simp only [List.map_cons, List.mem_cons]
      constructor
      · intro h hk
        rcases hk with hk | hk
        · exact hp hk.symm
        · exact h hk
      · intro h hk
        exact h (Or.inr hk)

theorem HMap.get_of_mem_nodup (l : List (Nat × β)) (p : Nat × β)
    (hnd : (l.map Prod.fst).Nodup) (hmem : p ∈ l) :
    HMap.get l p.1 = some p.2 := by
  induction l with
  | nil => simp at hmem
  | cons q l ih =>
    rcases List.mem_cons.1 hmem with h | h
    · subst h
      simp [HMap.get]
    · have hq : ¬ q.1 = p.1 := by
        intro he
        have : p.1 ∈ l.map Prod.fst := List.mem_map_of_mem Prod.fst h
        rw [← he] at this
        exact (List.nodup_cons.1 (by simpa using hnd)).1 this
      simp only [HMap.get, hq, if_neg]
      exact ih (List.nodup_cons.1 (by simpa using hnd)).2 h

theorem minByKey_mem (l : List (α × Nat)) (q : α × Nat)
    (h : minByKey l = some q) : q ∈ l := by
  induction l with
  | nil => cases h
  | cons x rest ih =>
    have hunf : minByKey (x :: rest) =
        match minByKey rest with
        | none => some x
        | some w => if w.2 < x.2 then some w else some x := rfl
    cases hr : minByKey rest with
    | none =>
      simp only [hunf, hr] at h
      injection h with h
      subst h
      exact List.mem_cons_self _ _
    | some w =>
      simp only [hunf, hr] at h
      by_cases hlt : w.2 < x.2
      · rw [if_pos hlt] at h
        injection h with h
        subst h
        exact List.mem_cons_of_mem _ (ih hr)
      · rw [if_neg hlt] at h
        injection h with h
        subst h
        exact List.mem_cons_self _ _

theorem HMap.map_fst_modify (l : List (Nat × β)) (k : Nat) (f : β → β) :
    (HMap.modify l k f).map Prod.fst = l.map Prod.fst := by
  unfold HMap.modify
  rw [List.map_map]
  apply List.map_congr_left
  intro p hp
  by_cases h : p.1 = k <;> simp [h]

theorem keysOk_elect (room : Room) (now : Int) (hk : room.KeysOk) :
    (room.elect_new_server now).KeysOk := hk

theorem serverOk_elect (room : Room) (now : Int) (hk : room.KeysOk) :
    (room.elect_new_server now).ServerOk := by
  intro id hid
  cases hbest : minByKey (room.ping_measurements.filter (room.electOk now)) with
  | some q =>
    rw [elect_new_server_server, hbest] at hid
    have hidq : q.1 = id := by simpa using hid
    have hqmem := minByKey_mem _ _ hbest
    have hf := (List.mem_filter.1 hqmem).2
    unfold Room.electOk at hf
    cases hget : HMap.get room.users q.1 with
    | none => rw [hget] at hf; cases hf
    | some user =>
      rw [hget] at hf
      simp only [Bool.and_eq_true, decide_eq_true_eq] at hf
      refine ⟨user, ?_, hf.1.1⟩
      show HMap.get room.users id = some user
      rw [← hidq]
      exact hget
  | none =>
    rw [elect_new_server_server, hbest] at hid
    cases hfind : room.users.find? (fun p => p.2.is_online) with
    | none => rw [hfind] at hid; cases hid
    | some w =>
      rw [hfind] at hid
      have hw1 : w.1 = id := by simpa using hid
      have hmem := List.mem_of_find?_eq_some hfind
      have hon : w.2.is_online = true := by simpa using List.find?_some hfind
      refine ⟨w.2, ?_, hon⟩
      show HMap.get room.users id = some w.2
      rw [← hw1]
      exact HMap.get_of_mem_nodup _ _ hk hmem

theorem check_server_health_snd (room : Room) (now : Int) :
    (room.check_server_health now).2 = room ∨
    (room.check_server_health now).2 = room.elect_new_server now := by
  cases hs : room.server_user_id with
  | none => right; simp [Room.check_server_health, hs]
  | some sid =>
    cases hu : HMap.get room.users sid with
    | none => right; simp [Room.check_server_health, hs, hu]
    | some u =>
      cases hon : u.is_online with
      | false => right; simp [Room.check_server_health, hs, hu, hon]
      | true =>
        cases hrec : room.is_ping_recent now sid with
        | false => right; simp [Room.check_server_health, hs, hu, hon, hrec]
        | true => left; simp [Room.check_server_health, hs, hu, hon, hrec]

theorem inv_new (rid : Nat) (name uname : List Char) (uid addr : Nat) (t0 now : Int)
    (proto : Protocol) :
    (Room.new rid name (User.new uid uname addr t0) proto now).KeysOk ∧
    (Room.new rid name (User.new uid uname addr t0) proto now).ServerOk := by
  constructor
  · simp [Room.KeysOk, Room.new]
  · intro id hid
    have hid2 : uid = id := by simpa [Room.new, User.new] using hid
    refine ⟨User.new uid uname addr t0, ?_, rfl⟩
    subst hid2
    simp [Room.new, HMap.get, User.new]

theorem inv_add_user (room : Room) (u : User) (hk : room.KeysOk) (hs : room.ServerOk) :
    (room.add_user u).1.KeysOk ∧ (room.add_user u).1.ServerOk := by
  by_cases hc : HMap.containsKey room.users u.id
  · have he : (room.add_user u).1 = room := by simp [Room.add_user, hc]
    rw [he]
    exact ⟨hk, hs⟩
  · have hgu : HMap.get room.users u.id = none := by
      unfold HMap.containsKey at hc
      cases hg : HMap.get room.users u.id with
      | none => rfl
      | some v => rw [hg] at hc; simp at hc
    have hne : u.id ∉ room.users.map Prod.fst := (HMap.get_none_iff _ _).1 hgu
    have hins : HMap.insert room.users u.id
        { u with name := room.resolve_name_collision u.name } =
        room.users ++ [(u.id, { u with name := room.resolve_name_collision u.name })] := by
      unfold HMap.insert
      rw [if_neg hc]
    have husers : (room.add_user u).1.users =
        room.users ++ [(u.id, { u with name := room.resolve_name_collision u.name })] := by
      by_cases hp : u.address ∈ room.peer_addresses
      · simp [Room.add_user, hc, hp, hins]
      · simp [Room.add_user, hc, hp, hins]
    have hserver : (room.add_user u).1.server_user_id = room.server_user_id := by
      by_cases hp : u.address ∈ room.peer_addresses
      · simp [Room.add_user, hc, hp]
      · simp [Room.add_user, hc, hp]
    constructor
    · unfold Room.KeysOk
      rw [husers, List.map_append]
      simp only [List.map_cons, List.map_nil]
      rw [List.nodup_append]
      refine ⟨hk, List.nodup_singleton _, ?_⟩
      intro a ha hb
      simp at hb
      subst hb
      exact hne ha
    · intro id hid
      rw [hserver] at hid
      obtain ⟨w, hw, hon⟩ := hs id hid
      refine ⟨w, ?_, hon⟩
      rw [husers]
      exact HMap.get_append_left _ _ _ _ hw

theorem inv_remove_user (room : Room) (now : Int) (uid : Nat)
    (hk : room.KeysOk) (hs : room.ServerOk) :
    (room.remove_user now uid).KeysOk ∧ (room.remove_user now uid).ServerOk := by
  cases hg : HMap.get room.users uid with
  | none =>
    have he : room.remove_user now uid = room := by simp [Room.remove_user, hg]
    rw [he]
    exact ⟨hk, hs⟩
  | some user =>
    have hk1 : (({ room with users := HMap.erase room.users uid, peer_addresses := room.peer_addresses.filter (fun a => a != user.address) } : Room)).KeysOk := by
      unfold Room.KeysOk at *
      exact List.Nodup.sublist (List.Sublist.map _ (List.filter_sublist _)) hk
    by_cases hsv : room.server_user_id = some uid
    · have he : room.remove_user now uid = Room.elect_new_server { room with users := HMap.erase room.users uid, peer_addresses := room.peer_addresses.filter (fun a => a != user.address) } now := by
        simp [Room.remove_user, hg, hsv]
      rw [he]
      exact ⟨keysOk_elect _ _ hk1, serverOk_elect _ _ hk1⟩
    · have he : room.remove_user now uid = { room with users := HMap.erase room.users uid, peer_addresses := room.peer_addresses.filter (fun a => a != user.address) } := by
        simp [Room.remove_user, hg, hsv]
      rw [he]
      refine ⟨hk1, ?_⟩
      intro id hid
      have hid2 : room.server_user_id = some id := hid
      obtain ⟨w, hw, hon⟩ := hs id hid2
      have hne : ¬ id = uid := by
        intro he2
        subst he2
        exact hsv hid2
      refine ⟨w, ?_, hon⟩
      show HMap.get (HMap.erase room.users uid) id = some w
      rw [HMap.get_erase, if_neg hne]
      exact hw

theorem inv_update_ping (room : Room) (now : Int) (uid ping : Nat)
    (hk : room.KeysOk) (hs : room.ServerOk) :
    (room.update_ping now uid ping).KeysOk ∧ (room.update_ping now uid ping).ServerOk := by
  constructor
  · show ((HMap.modify room.users uid
        (fun u => { u with last_seen := now, is_online := true })).map Prod.fst).Nodup
    rw [HMap.map_fst_modify]
    exact hk
  · intro id hid
    have hid2 : room.server_user_id = some id := hid
    obtain ⟨w, hw, hon⟩ := hs id hid2
    by_cases hi : id = uid
    · refine ⟨{ w with last_seen := now, is_online := true }, ?_, rfl⟩
      show HMap.get (HMap.modify room.users uid
        (fun u => { u with last_seen := now, is_online := true })) id = _
      rw [HMap.get_modify, if_pos hi, hw]
      rfl
    · refine ⟨w, ?_, hon⟩
      show HMap.get (HMap.modify room.users uid
        (fun u => { u with last_seen := now, is_online := true })) id = some w
      rw [HMap.get_modify, if_neg hi]
      exact hw

theorem inv_mark_user_online (room : Room) (now : Int) (uid : Nat)
    (hk : room.KeysOk) (hs : room.ServerOk) :
    (room.mark_user_online now uid).KeysOk ∧ (room.mark_user_online now uid).ServerOk := by
  constructor
  · show ((HMap.modify room.users uid
        (fun u => { u with is_online := true, last_seen := now })).map Prod.fst).Nodup
    rw [HMap.map_fst_modify]
    exact hk
  · intro id hid
    have hid2 : room.server_user_id = some id := hid
    obtain ⟨w, hw, hon⟩ := hs id hid2
    by_cases hi : id = uid
    · refine ⟨{ w with is_online := true, last_seen := now }, ?_, rfl⟩
      show HMap.get (HMap.modify room.users uid
        (fun u => { u with is_online := true, last_seen := now })) id = _
      rw [HMap.get_modify, if_pos hi, hw]
      rfl
    · refine ⟨w, ?_, hon⟩
      show HMap.get (HMap.modify room.users uid
        (fun u => { u with is_online := true, last_seen := now })) id = some w
      rw [HMap.get_modify, if_neg hi]
      exact hw

theorem inv_mark_user_offline (room : Room) (now : Int) (uid : Nat)
    (hk : room.KeysOk) (hs : room.ServerOk) :
    (room.mark_user_offline now uid).KeysOk ∧ (room.mark_user_offline now uid).ServerOk := by
  by_cases hc : HMap.containsKey room.users uid
  · have hk1 : (({ room with users := HMap.modify room.users uid (fun u => { u with is_online := false }) } : Room)).KeysOk := by
      show ((HMap.modify room.users uid (fun u => { u with is_online := false })).map Prod.fst).Nodup
      rw [HMap.map_fst_modify]
      exact hk
    by_cases hsv : room.server_user_id = some uid
    · have he : room.mark_user_offline now uid = Room.elect_new_server { room with users := HMap.modify room.users uid (fun u => { u with is_online := false }) } now := by
        simp [Room.mark_user_offline, hc, hsv]
      rw [he]
      exact ⟨keysOk_elect _ _ hk1, serverOk_elect _ _ hk1⟩
    · have he : room.mark_user_offline now uid = { room with users := HMap.modify room.users uid (fun u => { u with is_online := false }) } := by
        simp [Room.mark_user_offline, hc, hsv]
      rw [he]
      refine ⟨hk1, ?_⟩
      intro id hid
      have hid2 : room.server_user_id = some id := hid
      obtain ⟨w, hw, hon⟩ := hs id hid2
      have hne : ¬ id = uid := by
        intro he2
        subst he2
        exact hsv hid2
      refine ⟨w, ?_, hon⟩
      show HMap.get (HMap.modify room.users uid
        (fun u => { u with is_online := false })) id = some w
      rw [HMap.get_modify, if_neg hne]
      exact hw
  · have he : room.mark_user_offline now uid = room := by
      simp [Room.mark_user_offline, hc]
    rw [he]
    exact ⟨hk, hs⟩

theorem inv_mark_fold (l : List Nat) (room : Room) (now : Int)
    (hk : room.KeysOk) (hs : room.ServerOk) :
    (l.foldl (fun r uid => r.mark_user_offline now uid) room).KeysOk ∧
    (l.foldl (fun r uid => r.mark_user_offline now uid) room).ServerOk := by
  induction l generalizing room with
  | nil => exact ⟨hk, hs⟩
  | cons uid rest ih =>
    obtain ⟨hk1, hs1⟩ := inv_mark_user_offline room now uid hk hs
    exact ih _ hk1 hs1

theorem inv_cleanup (room : Room) (now threshold : Int)
    (hk : room.KeysOk) (hs : room.ServerOk) :
    (room.cleanup_offline_users now threshold).KeysOk ∧
    (room.cleanup_offline_users now threshold).ServerOk := by
  obtain ⟨hk1, hs1⟩ := inv_mark_fold
    ((room.users.filter (fun p =>
      p.2.is_online && decide (numMinutes (now - p.2.last_seen) > threshold))).map (fun p => p.1))
    room now hk hs
  exact ⟨hk1, fun id hid => hs1 id hid⟩

/-- Claim C2: in every Room reachable from `Room::new` by the public
operations, an assigned `server_user_id` keys an entry of `users` whose
`is_online` flag is true. -/
theorem reachable_server_invariant (room : Room) (h : Reachable room) :
    ∀ id, room.server_user_id = some id →
      ∃ u, HMap.get room.users id = some u ∧ u.is_online = true := by
  have hinv : room.KeysOk ∧ room.ServerOk := by
    induction h with
    | new room_id name uid uname addr t0 proto now => exact inv_new room_id name uname uid addr t0 now proto
    | add_user room u hr ih => exact inv_add_user room u ih.1 ih.2
    | remove_user room now uid hr ih => exact inv_remove_user room now uid ih.1 ih.2
    | add_message room m hr ih => exact ⟨ih.1, fun id hid => ih.2 id hid⟩
    | update_ping room now uid ping hr ih => exact inv_update_ping room now uid ping ih.1 ih.2
    | mark_user_offline room now uid hr ih => exact inv_mark_user_offline room now uid ih.1 ih.2
    | mark_user_online room now uid hr ih => exact inv_mark_user_online room now uid ih.1 ih.2
    | cleanup_offline_users room now threshold hr ih => exact inv_cleanup room now threshold ih.1 ih.2
    | check_server_health room now hr ih =>
      rcases check_server_health_snd room now with he | he
      · rw [he]; exact ih
      · rw [he]; exact ⟨keysOk_elect _ _ ih.1, serverOk_elect _ _ ih.1⟩
    | elect_new_server room now hr ih => exact ⟨keysOk_elect _ _ ih.1, serverOk_elect _ _ ih.1⟩
  exact hinv.2

/-- Witness for C2: in the freshly created room the invariant instantiates
to the creator, who is online. -/
theorem reachable_server_invariant_witness :
    (User.new 1 ['A'] 10 0).is_online = true := by
  obtain ⟨u, hu, hon⟩ := reachable_server_invariant
    (Room.new 100 ['R'] (User.new 1 ['A'] 10 0) Protocol.TCP 0)
    (Reachable.new 100 ['R'] 1 ['A'] 10 0 Protocol.TCP 0) 1 (by decide)
  have he : HMap.get (Room.new 100 ['R'] (User.new 1 ['A'] 10 0) Protocol.TCP 0).users 1 =
      some (User.new 1 ['A'] 10 0) := by decide
  rw [he] at hu
  injection hu with hu2
  rw [hu2]
  exact hon

/-! ### C3 — name collision resolution -/

theorem digitCharToNat : ∀ r, r < 10 → (Char.ofNat (48 + r)).toNat = 48 + r := by decide

theorem natToCharsAux_digits (f n : Nat) (hnf : n ≤ f) :
    ∀ c ∈ natToCharsAux f n, 48 ≤ c.toNat ∧ c.toNat ≤ 57 := by
  induction f generalizing n with
  | zero =>
    have : n = 0 := Nat.le_zero.1 hnf
    subst this
    intro c hc
    simp [natToCharsAux] at hc
  | succ k ih =>
    cases n with
    | zero =>
      intro c hc
      simp [natToCharsAux] at hc
    | succ m =>
      intro c hc
      rw [show natToCharsAux (k + 1) (m + 1) =
        natToCharsAux k ((m + 1) / 10) ++ [Char.ofNat (48 + (m + 1) % 10)] from rfl] at hc
      rcases List.mem_append.1 hc with hc | hc
      · exact ih ((m + 1) / 10) (by omega) c hc
      · simp at hc
        subst hc
        rw [digitCharToNat _ (Nat.mod_lt _ (by omega))]
        omega

theorem natToCharsAux_decode (f : Nat) :
    ∀ n a, n ≤ f →
      (natToCharsAux f n).foldl (fun a c => a * 10 + (c.toNat - 48)) a =
        a * 10 ^ (natToCharsAux f n).length + n := by
  induction f with
  | zero =>
    intro n a hnf
    have : n = 0 := Nat.le_zero.1 hnf
    subst this
    simp [natToCharsAux]
  | succ k ih =>
    intro n a hnf
    cases n with
    | zero => simp [natToCharsAux]
    | succ m =>
      rw [show natToCharsAux (k + 1) (m + 1) =
        natToCharsAux k ((m + 1) / 10) ++ [Char.ofNat (48 + (m + 1) % 10)] from rfl]
      rw [List.foldl_append]
      rw [ih ((m + 1) / 10) a (by omega)]
      simp only [List.foldl_cons, List.foldl_nil, List.length_append, List.length_cons,
        List.length_nil]
      rw [digitCharToNat _ (Nat.mod_lt _ (by omega))]
      have h48 : 48 + (m + 1) % 10 - 48 = (m + 1) % 10 := by omega
      rw [h48]
      have hpow : 10 ^ (List.length (natToCharsAux k ((m + 1) / 10)) + 1) =
          10 ^ List.length (natToCharsAux k ((m + 1) / 10)) * 10 := by
        rw [pow_succ]
      rw [hpow]
      have := Nat.div_add_mod (m + 1) 10
      ring_nf
      omega

theorem natToCharsAux_ne_nil (k m : Nat) : natToCharsAux (k + 1) (m + 1) ≠ [] := by
  rw [show natToCharsAux (k + 1) (m + 1) =
    natToCharsAux k ((m + 1) / 10) ++ [Char.ofNat (48 + (m + 1) % 10)] from rfl]
  simp

theorem parseU32_natToChars (n : Nat) (hpos : 0 < n) (hlt : n < u32MOD) :
    parseU32 (natToChars n) = some n := by
  have hnz : ¬ n = 0 := by omega
  have hform : natToChars n = natToCharsAux n n := by simp [natToChars, hnz]
  obtain ⟨k, hk⟩ : ∃ k, n = k + 1 := ⟨n - 1, by omega⟩
  have hne : natToCharsAux n n ≠ [] := by
    rw [hk]
    exact natToCharsAux_ne_nil k k
  have hdigits := natToCharsAux_digits n n (le_refl n)
  obtain ⟨c0, cs', hcons⟩ : ∃ c0 cs', natToCharsAux n n = c0 :: cs' := by
    cases hx : natToCharsAux n n with
    | nil => exact absurd hx hne
    | cons c0 cs' => exact ⟨c0, cs', rfl⟩
  have hhead : ¬ (natToCharsAux n n).head? = some '+' := by
    rw [hcons]
    intro hx
    injection hx with hx
    have := hdigits c0 (by rw [hcons]; exact List.mem_cons_self _ _)
    rw [hx] at this
    simp at this
  unfold parseU32
  rw [hform, if_neg hhead]
  rw [if_neg (by rw [hcons]; simp)]
  have hall : (natToCharsAux n n).all (fun c => 48 ≤ c.toNat && c.toNat ≤ 57) = true := by
    rw [List.all_eq_true]
    intro c hc
    have := hdigits c hc
    simp only [Bool.and_eq_true, decide_eq_true_eq]
    omega
  rw [if_pos hall]
  rw [natToCharsAux_decode n n 0 (le_refl n)]
  simp only [Nat.zero_mul, Nat.zero_add]
  rw [if_pos hlt]

theorem startsList_nil (s : List Char) : startsList s [] = true := by
  cases s <;> rfl

theorem startsList_append (p t : List Char) : startsList (p ++ t) p = true := by
  induction p with
  | nil => simp [startsList_nil]
  | cons c p ih => simp [startsList, ih]

theorem startsList_length (s p : List Char) (h : startsList s p = true) :
    p.length ≤ s.length := by
  induction p generalizing s with
  | nil => simp
  | cons d p ih =>
    cases s with
    | nil => simp [startsList] at h
    | cons c s =>
      simp only [startsList, Bool.and_eq_true] at h
      have := ih s h.2
      simp only [List.length_cons]
      omega

theorem stripLeading_append (p t : List Char) : stripLeading (p ++ t) p = some t := by
  unfold stripLeading
  rw [if_pos (startsList_append p t)]
  rw [List.drop_left]

theorem startsList_of_append (s p q : List Char) (h : startsList s (p ++ q) = true) :
    startsList s p = true := by
  induction p generalizing s with
  | nil => simp [startsList_nil]
  | cons d p ih =>
    cases s with
    | nil => simp [startsList] at h
    | cons c s =>
      simp only [List.cons_append, startsList, Bool.and_eq_true] at h ⊢
      exact ⟨h.1, ih s h.2⟩

theorem startsList_self (s : List Char) : startsList s s = true := by
  have := startsList_append s []
  simpa using this

theorem stripLeading_self_dash (d : List Char) : stripLeading d (d ++ ['-']) = none := by
  unfold stripLeading
  rw [if_neg]
  intro hx
  have := startsList_length d (d ++ ['-']) hx
  simp at this

theorem suffixStep_of_exact (d : List Char) (h : Nat) (name suf : List Char) (m : Nat)
    (hs : startsList name d = true)
    (hstrip : stripLeading name (d ++ ['-']) = some suf)
    (hparse : parseU32 suf = some m) :
    suffixStep d h name = max h ((m + 1) % u32MOD) := by
  unfold suffixStep
  simp [hs, hstrip, hparse]

theorem suffixStep_of_bare (d : List Char) (h : Nat) : suffixStep d h d = max h 2 := by
  unfold suffixStep
  simp [startsList_self, stripLeading_self_dash]

theorem suffixStep_cases (d : List Char) (h : Nat) (name : List Char) :
    suffixStep d h name = h
    ∨ (∃ suf m, stripLeading name (d ++ ['-']) = some suf ∧ parseU32 suf = some m
        ∧ suffixStep d h name = max h ((m + 1) % u32MOD))
    ∨ (name = d ∧ suffixStep d h name = max h 2) := by
  by_cases hs : startsList name d
  · cases hstrip : stripLeading name (d ++ ['-']) with
    | some suf =>
      cases hp : parseU32 suf with
      | some m =>
        right; left
        exact ⟨suf, m, rfl, hp, suffixStep_of_exact d h name suf m hs hstrip hp⟩
      | none =>
        left
        unfold suffixStep
        simp [hs, hstrip, hp]
    | none =>
      by_cases he : name = d
      · right; right
        refine ⟨he, ?_⟩
        rw [he]
        exact suffixStep_of_bare d h
      · left
        unfold suffixStep
        simp [hs, hstrip, he]
  · left
    unfold suffixStep
    simp [hs]

theorem suffixStep_ge (d : List Char) (h : Nat) (name : List Char) :
    h ≤ suffixStep d h name := by
  rcases suffixStep_cases d h name with hc | ⟨suf, m, -, -, hc⟩ | ⟨-, hc⟩
  · rw [hc]
  · rw [hc]
    exact Nat.le_max_left _ _
  · rw [hc]
    exact Nat.le_max_left _ _

theorem fold_suffixStep_ge (d : List Char) (l : List (List Char)) (h : Nat) :
    h ≤ l.foldl (suffixStep d) h := by
  induction l generalizing h with
  | nil => exact le_refl _
  | cons e rest ih => exact le_trans (suffixStep_ge d h e) (ih _)

theorem fold_suffixStep_lt (d : List Char) (l : List (List Char)) (h : Nat)
    (hh : h < u32MOD) : l.foldl (suffixStep d) h < u32MOD := by
  induction l generalizing h with
  | nil => exact hh
  | cons e rest ih =>
    apply ih
    rcases suffixStep_cases d h e with hc | ⟨suf, m, -, -, hc⟩ | ⟨-, hc⟩
    · rw [hc]
      exact hh
    · rw [hc]
      exact max_lt hh (Nat.mod_lt _ (by norm_num [u32MOD]))
    · rw [hc]
      exact max_lt hh (by norm_num [u32MOD])

theorem fold_suffixStep_exact (d : List Char) (l : List (List Char)) (h : Nat)
    (name suf : List Char) (m : Nat) (hmem : name ∈ l)
    (hstrip : stripLeading name (d ++ ['-']) = some suf)
    (hparse : parseU32 suf = some m) :
    (m + 1) % u32MOD ≤ l.foldl (suffixStep d) h := by
  induction l generalizing h with
  | nil => cases hmem
  | cons e rest ih =>
    rcases List.mem_cons.1 hmem with he | he
    · subst he
      have hs : startsList name d = true := by
        have h1 : startsList name (d ++ ['-']) = true := by
          by_cases hx : startsList name (d ++ ['-'])
          · exact hx
          · unfold stripLeading at hstrip
            rw [if_neg hx] at hstrip
            cases hstrip
        exact startsList_of_append name d ['-'] h1
      calc (m + 1) % u32MOD ≤ suffixStep d h name := by
            rw [suffixStep_of_exact d h name suf m hs hstrip hparse]
            exact Nat.le_max_right _ _
        _ ≤ _ := fold_suffixStep_ge d rest _
    · exact ih _ he

theorem fold_suffixStep_bare (d : List Char) (l : List (List Char)) (h : Nat)
    (hmem : d ∈ l) : 2 ≤ l.foldl (suffixStep d) h := by
  induction l generalizing h with
  | nil => cases hmem
  | cons e rest ih =>
    rcases List.mem_cons.1 hmem with he | he
    · calc (2 : Nat) ≤ suffixStep d h e := by
            rw [← he, suffixStep_of_bare]
            exact Nat.le_max_right _ _
        _ ≤ _ := fold_suffixStep_ge d rest _
    · exact ih _ he

theorem fold_suffixStep_attained (d : List Char) (l : List (List Char)) :
    ∀ h, l.foldl (suffixStep d) h = h
    ∨ (∃ name, name ∈ l ∧ ∃ suf m, stripLeading name (d ++ ['-']) = some suf
        ∧ parseU32 suf = some m ∧ l.foldl (suffixStep d) h = (m + 1) % u32MOD)
    ∨ (d ∈ l ∧ l.foldl (suffixStep d) h = 2) := by
  induction l with
  | nil => intro h; left; rfl
  | cons e rest ih =>
    intro h
    have hfold : (e :: rest).foldl (suffixStep d) h =
        rest.foldl (suffixStep d) (suffixStep d h e) := rfl
    rcases ih (suffixStep d h e) with hrec | hrec | hrec
    · rw [hfold, hrec]
      rcases suffixStep_cases d h e with hc | ⟨suf, m, h1, h2, h3⟩ | ⟨he, h3⟩
      · left; exact hc
      · rcases le_total h ((m + 1) % u32MOD) with hle | hle
        · right; left
          exact ⟨e, List.mem_cons_self _ _, suf, m, h1, h2,
            by rw [h3]; exact Nat.max_eq_right hle⟩
        · left
          rw [h3]
          exact Nat.max_eq_left hle
      · rcases le_total h 2 with hle | hle
        · right; right
          exact ⟨List.mem_cons.2 (Or.inl he.symm),
            by rw [h3]; exact Nat.max_eq_right hle⟩
        · left
          rw [h3]
          exact Nat.max_eq_left hle
    · obtain ⟨name, hn, suf, m, h1, h2, h3⟩ := hrec
      right; left
      exact ⟨name, List.mem_cons_of_mem e hn, suf, m, h1, h2, by rw [hfold]; exact h3⟩
    · right; right
      exact ⟨List.mem_cons_of_mem e hrec.1, by rw [hfold]; exact hrec.2⟩

/-- Claim C3 (amended): `resolve_name_collision` returns the desired name
unchanged when no existing user has it.  Otherwise it returns
`base-(highest)` where `highest` is the fold of the loop body `suffixStep`:
at least `(N+1) mod 2^32` for every existing name of the exact form
`base-N` (the `+1` is wrapping `u32` arithmetic), at least 2 because the
bare base is present, and attained by one of those bounds — i.e. the
claim's `base-(max+1)` with the bare base demanding at least suffix 2.
The returned name differs from every existing user name provided no
existing user is named exactly `base-4294967295` (`N = u32::MAX`, where
the wrapping increment breaks the claim — see the counterexample).
Adding three users all named "Alice" to a fresh room yields "Alice",
"Alice-2", "Alice-3" in join order. -/
theorem resolve_name_collision_ok (room : Room) (desired : List Char) :
    (desired ∉ room.users.map (fun p => p.2.name) →
      room.resolve_name_collision desired = desired)
    ∧ (desired ∈ room.users.map (fun p => p.2.name) →
        room.resolve_name_collision desired =
          desired ++ '-' :: natToChars
            ((room.users.map (fun p => p.2.name)).foldl (suffixStep desired) 1)
        ∧ 2 ≤ (room.users.map (fun p => p.2.name)).foldl (suffixStep desired) 1
        ∧ (room.users.map (fun p => p.2.name)).foldl (suffixStep desired) 1 < u32MOD
        ∧ (∀ name ∈ room.users.map (fun p => p.2.name), ∀ suf m,
            stripLeading name (desired ++ ['-']) = some suf → parseU32 suf = some m →
            (m + 1) % u32MOD ≤
              (room.users.map (fun p => p.2.name)).foldl (suffixStep desired) 1)
        ∧ ((room.users.map (fun p => p.2.name)).foldl (suffixStep desired) 1 = 2
            ∨ ∃ name, name ∈ room.users.map (fun p => p.2.name) ∧ ∃ suf m,
                stripLeading name (desired ++ ['-']) = some suf ∧ parseU32 suf = some m ∧
                (room.users.map (fun p => p.2.name)).foldl (suffixStep desired) 1 =
                  (m + 1) % u32MOD))
    ∧ (desired ∈ room.users.map (fun p => p.2.name) →
        desired ++ '-' :: natToChars (u32MOD - 1) ∉ room.users.map (fun p => p.2.name) →
        room.resolve_name_collision desired ∉ room.users.map (fun p => p.2.name))
    ∧ (let r0 := Room.new 100 ['R'] (User.new 1 "Alice".data 10 0) Protocol.TCP 0
       let r1 := (r0.add_user (User.new 2 "Alice".data 11 0)).1
       let r2 := (r1.add_user (User.new 3 "Alice".data 12 0)).1
       (HMap.get r2.users 1).map User.name = some "Alice".data
         ∧ (HMap.get r2.users 2).map User.name = some "Alice-2".data
         ∧ (HMap.get r2.users 3).map User.name = some "Alice-3".data) := by
  refine ⟨?_, ?_, ?_, by decide⟩
  · intro hno
    have hany : (room.users.map (fun p => p.2.name)).any (fun n => n = desired) = false := by
      simp only [List.any_eq_false, decide_eq_true_eq]
      intro x hx he
      exact hno (he ▸ hx)
    simp [Room.resolve_name_collision, hany]
  · intro hmem
    have hany : (room.users.map (fun p => p.2.name)).any (fun n => n = desired) = true := by
      rw [List.any_eq_true]
      exact ⟨desired, hmem, by simp⟩
    refine ⟨by simp [Room.resolve_name_collision, hany], fold_suffixStep_bare desired _ 1 hmem,
      fold_suffixStep_lt desired _ 1 (by norm_num [u32MOD]), ?_, ?_⟩
    · intro name hn suf m hstrip hparse
      exact fold_suffixStep_exact desired _ 1 name suf m hn hstrip hparse
    · rcases fold_suffixStep_attained desired (room.users.map (fun p => p.2.name)) 1
        with hc | hc | hc
      · have := fold_suffixStep_bare desired (room.users.map (fun p => p.2.name)) 1 hmem
        omega
      · right
        exact hc
      · left
        exact hc.2
  · intro hmem hnot hRin
    have hany : (room.users.map (fun p => p.2.name)).any (fun n => n = desired) = true := by
      rw [List.any_eq_true]
      exact ⟨desired, hmem, by simp⟩
    have h2H : 2 ≤ (room.users.map (fun p => p.2.name)).foldl (suffixStep desired) 1 :=
      fold_suffixStep_bare desired _ 1 hmem
    have hHlt : (room.users.map (fun p => p.2.name)).foldl (suffixStep desired) 1 < u32MOD :=
      fold_suffixStep_lt desired _ 1 (by norm_num [u32MOD])
    have hres : room.resolve_name_collision desired =
        desired ++ '-' :: natToChars
          ((room.users.map (fun p => p.2.name)).foldl (suffixStep desired) 1) := by
      simp [Room.resolve_name_collision, hany]
    rw [hres] at hRin
    have hsplit : ∀ x : Nat, desired ++ '-' :: natToChars x = (desired ++ ['-']) ++ natToChars x := by
      intro x
      simp
    have hstrip : stripLeading
        (desired ++ '-' :: natToChars
          ((room.users.map (fun p => p.2.name)).foldl (suffixStep desired) 1))
        (desired ++ ['-']) = some (natToChars
          ((room.users.map (fun p => p.2.name)).foldl (suffixStep desired) 1)) := by
      rw [hsplit]
      exact stripLeading_append _ _
    have hparse : parseU32 (natToChars
        ((room.users.map (fun p => p.2.name)).foldl (suffixStep desired) 1)) =
        some ((room.users.map (fun p => p.2.name)).foldl (suffixStep desired) 1) :=
      parseU32_natToChars _ (by omega) hHlt
    have hle := fold_suffixStep_exact desired (room.users.map (fun p => p.2.name)) 1
      _ _ _ hRin hstrip hparse
    by_cases hmax : (room.users.map (fun p => p.2.name)).foldl (suffixStep desired) 1 = u32MOD - 1
    · apply hnot
      rw [← hmax]
      exact hRin
    · have hmod : ((room.users.map (fun p => p.2.name)).foldl (suffixStep desired) 1 + 1) % u32MOD =
          (room.users.map (fun p => p.2.name)).foldl (suffixStep desired) 1 + 1 :=
        Nat.mod_eq_of_lt (by omega)
      omega

/-- Counterexample to C3 as stated: with existing names "Alice",
"Alice-4294967294" and "Alice-4294967295", resolving "Alice" computes
`max` over wrapping `u32` increments — `4294967295 + 1` wraps to 0, so the
highest suffix is 4294967295 and the function returns "Alice-4294967295",
which collides with an existing user name, contradicting the claim that
the returned name differs from every existing one. -/
theorem resolve_name_collision_cex :
    Room.resolve_name_collision { id := 0, name := [], creator_id := 1, users := [(1, User.new 1 "Alice".data 10 0), (2, User.new 2 "Alice-4294967294".data 11 0), (3, User.new 3 "Alice-4294967295".data 12 0)], messages := [], server_user_id := some 1, protocol := Protocol.TCP, peer_addresses := [], ping_measurements := [], created_at := 0, is_voice_enabled := false, call_server_id := none, is_call_active := false } "Alice".data = "Alice-4294967295".data
    ∧ "Alice-4294967295".data ∈ (Room.users { id := 0, name := [], creator_id := 1, users := [(1, User.new 1 "Alice".data 10 0), (2, User.new 2 "Alice-4294967294".data 11 0), (3, User.new 3 "Alice-4294967295".data 12 0)], messages := [], server_user_id := some 1, protocol := Protocol.TCP, peer_addresses := [], ping_measurements := [], created_at := 0, is_voice_enabled := false, call_server_id := none, is_call_active := false }).map (fun p => p.2.name) := by
  decide

/-- Witness for C3 (amended): with existing names "Alice" and "Alice-7",
resolving "Alice" produces a name distinct from every existing one. -/
theorem resolve_name_collision_ok_witness :
    Room.resolve_name_collision { id := 0, name := [], creator_id := 1, users := [(1, User.new 1 "Alice".data 10 0), (2, User.new 2 "Alice-7".data 11 0)], messages := [], server_user_id := some 1, protocol := Protocol.TCP, peer_addresses := [], ping_measurements := [], created_at := 0, is_voice_enabled := false, call_server_id := none, is_call_active := false } "Alice".data ∉ (Room.users { id := 0, name := [], creator_id := 1, users := [(1, User.new 1 "Alice".data 10 0), (2, User.new 2 "Alice-7".data 11 0)], messages := [], server_user_id := some 1, protocol := Protocol.TCP, peer_addresses := [], ping_measurements := [], created_at := 0, is_voice_enabled := false, call_server_id := none, is_call_active := false }).map (fun p => p.2.name) :=
  (resolve_name_collision_ok { id := 0, name := [], creator_id := 1, users := [(1, User.new 1 "Alice".data 10 0), (2, User.new 2 "Alice-7".data 11 0)], messages := [], server_user_id := some 1, protocol := Protocol.TCP, peer_addresses := [], ping_measurements := [], created_at := 0, is_voice_enabled := false, call_server_id := none, is_call_active := false } "Alice".data).2.2.1 (by decide) (by decide)

/-! ### C9 — invite code round trip -/

theorem charSextet_sextetChar : ∀ s, s < 64 → charSextet (sextetChar s) = some s := by
  decide

theorem sextetChar_ne_colon (s : Nat) : sextetChar s ≠ 58 := by
  unfold sextetChar
  split_ifs <;> omega

theorem b64Encode_ne_colon (l : List Nat) : ∀ c ∈ b64Encode l, c ≠ 58 := by
  induction l using b64Encode.induct with
  | case1 =>
    intro c hc
    simp [b64Encode] at hc
  | case2 b1 =>
    intro c hc
    simp only [b64Encode, List.mem_cons, List.not_mem_nil, or_false] at hc
    rcases hc with hc | hc
    · exact hc ▸ sextetChar_ne_colon _
    · exact hc ▸ sextetChar_ne_colon _
  | case3 b1 b2 =>
    intro c hc
    simp only [b64Encode, List.mem_cons, List.not_mem_nil, or_false] at hc
    rcases hc with hc | hc | hc
    · exact hc ▸ sextetChar_ne_colon _
    · exact hc ▸ sextetChar_ne_colon _
    · exact hc ▸ sextetChar_ne_colon _
  | case4 b1 b2 b3 rest ih =>
    intro c hc
    simp only [b64Encode, List.mem_cons] at hc
    rcases hc with hc | hc | hc | hc | hc
    · exact hc ▸ sextetChar_ne_colon _
    · exact hc ▸ sextetChar_ne_colon _
    · exact hc ▸ sextetChar_ne_colon _
    · exact hc ▸ sextetChar_ne_colon _
    · exact ih c hc

theorem b64_roundtrip (l : List Nat) (hb : ∀ b ∈ l, b < 256) :
    b64Decode (b64Encode l) = some l := by
  induction l using b64Encode.induct with
  | case1 => rfl
  | case2 b1 =>
    have hb1 : b1 < 256 := hb b1 (by simp)
    have e1 : charSextet (sextetChar (b1 / 4)) = some (b1 / 4) :=
      charSextet_sextetChar _ (by omega)
    have e2 : charSextet (sextetChar (b1 % 4 * 16)) = some (b1 % 4 * 16) :=
      charSextet_sextetChar _ (by omega)
    have hmod : b1 % 4 * 16 % 16 = 0 := by omega
    simp [b64Encode, b64Decode, e1, e2, hmod]
    omega
  | case3 b1 b2 =>
    have hb1 : b1 < 256 := hb b1 (by simp)
    have hb2 : b2 < 256 := hb b2 (by simp)
    have e1 : charSextet (sextetChar (b1 / 4)) = some (b1 / 4) :=
      charSextet_sextetChar _ (by omega)
    have e2 : charSextet (sextetChar (b1 % 4 * 16 + b2 / 16)) = some (b1 % 4 * 16 + b2 / 16) :=
      charSextet_sextetChar _ (by omega)
    have e3 : charSextet (sextetChar (b2 % 16 * 4)) = some (b2 % 16 * 4) :=
      charSextet_sextetChar _ (by omega)
    have hmod : b2 % 16 * 4 % 4 = 0 := by omega
    simp [b64Encode, b64Decode, e1, e2, e3, hmod]
    constructor
    · omega
    · omega
  | case4 b1 b2 b3 rest ih =>
    have hb1 : b1 < 256 := hb b1 (by simp)
    have hb2 : b2 < 256 := hb b2 (by simp)
    have hb3 : b3 < 256 := hb b3 (by simp)
    have ih2 := ih (fun b hbm => hb b (by simp [hbm]))
    have e1 : charSextet (sextetChar (b1 / 4)) = some (b1 / 4) :=
      charSextet_sextetChar _ (by omega)
    have e2 : charSextet (sextetChar (b1 % 4 * 16 + b2 / 16)) = some (b1 % 4 * 16 + b2 / 16) :=
      charSextet_sextetChar _ (by omega)
    have e3 : charSextet (sextetChar (b2 % 16 * 4 + b3 / 64)) = some (b2 % 16 * 4 + b3 / 64) :=
      charSextet_sextetChar _ (by omega)
    have e4 : charSextet (sextetChar (b3 % 64)) = some (b3 % 64) :=
      charSextet_sextetChar _ (by omega)
    show b64Decode (sextetChar (b1 / 4) :: sextetChar (b1 % 4 * 16 + b2 / 16) ::
      sextetChar (b2 % 16 * 4 + b3 / 64) :: sextetChar (b3 % 64) :: b64Encode rest) =
      some (b1 :: b2 :: b3 :: rest)
    simp [b64Decode, e1, e2, e3, e4, ih2]
    refine ⟨by omega, by omega, by omega⟩

theorem startsBytes_append (p t : List Nat) : startsBytes (p ++ t) p = true := by
  induction p with
  | nil => cases t <;> rfl
  | cons c p ih => simp [startsBytes, ih]

theorem startsBytes_mem (s pre : List Nat) (h : startsBytes s pre = true) :
    ∀ c ∈ pre, c ∈ s := by
  induction pre generalizing s with
  | nil => simp
  | cons d pre ih =>
    cases s with
    | nil => simp [startsBytes] at h
    | cons c s =>
      simp only [startsBytes, Bool.and_eq_true, decide_eq_true_eq] at h
      intro e he
      rcases List.mem_cons.1 he with he | he
      · rw [he, ← h.1]
        exact List.mem_cons_self _ _
      · exact List.mem_cons_of_mem _ (ih s h.2 e he)

/-- Claim C9: for every InviteData value, parsing the generated invite code
returns the value unchanged, and parsing also succeeds on the bare token
with the `shortgap://` prefix absent.  `jsonEnc`/`jsonDec` model the
external `serde_json` serialization (composed with `String::as_bytes`);
the hypotheses state what Rust guarantees about it: the round trip on `x`,
that the produced JSON is valid UTF-8, and that its bytes are bytes. -/
theorem invite_code_roundtrip (x : InviteData)
    (jsonEnc : InviteData → List Nat) (jsonDec : List Nat → Option InviteData)
    (hdec : jsonDec (jsonEnc x) = some x)
    (hvalid : utf8Valid (jsonEnc x) = true)
    (hbytes : ∀ b ∈ jsonEnc x, b < 256) :
    InviteData.parse_invite_code jsonDec (InviteData.generate_invite_code jsonEnc x) = some x
    ∧ InviteData.parse_invite_code jsonDec (b64Encode (jsonEnc x)) = some x := by
  have hdecode : b64Decode (b64Encode (jsonEnc x)) = some (jsonEnc x) :=
    b64_roundtrip (jsonEnc x) hbytes
  have hutf : from_utf8 (jsonEnc x) = some (jsonEnc x) := by
    unfold from_utf8
    rw [if_pos hvalid]
  constructor
  · unfold InviteData.parse_invite_code InviteData.generate_invite_code
    rw [if_pos (startsBytes_append inviteScheme (b64Encode (jsonEnc x)))]
    rw [List.drop_left]
    simp only [hdecode, hutf, hdec]
  · unfold InviteData.parse_invite_code
    have hns : startsBytes (b64Encode (jsonEnc x)) inviteScheme = false := by
      cases hsb : startsBytes (b64Encode (jsonEnc x)) inviteScheme with
      | false => rfl
      | true =>
        have h58 : (58 : Nat) ∈ b64Encode (jsonEnc x) :=
          startsBytes_mem _ _ hsb 58 (by decide)
        exact absurd rfl (b64Encode_ne_colon _ 58 h58)
    rw [if_neg (by rw [hns]; exact Bool.false_ne_true)]
    simp only [hdecode, hutf, hdec]

/-- Witness for C9: a concrete InviteData value with a two-byte ASCII
serialization round-trips through the invite-code pipeline. -/
theorem invite_code_roundtrip_witness :
    InviteData.parse_invite_code
      (fun _ => some { room_id := 5, room_name := ['R'], creator_name := ['C'], peer_addresses := [9], protocol := Protocol.TCP, created_at := 7 })
      (InviteData.generate_invite_code (fun _ => [97, 98])
        { room_id := 5, room_name := ['R'], creator_name := ['C'], peer_addresses := [9], protocol := Protocol.TCP, created_at := 7 })
      = some { room_id := 5, room_name := ['R'], creator_name := ['C'], peer_addresses := [9], protocol := Protocol.TCP, created_at := 7 } :=
  (invite_code_roundtrip
    { room_id := 5, room_name := ['R'], creator_name := ['C'], peer_addresses := [9], protocol := Protocol.TCP, created_at := 7 }
    (fun _ => [97, 98])
    (fun _ => some { room_id := 5, room_name := ['R'], creator_name := ['C'], peer_addresses := [9], protocol := Protocol.TCP, created_at := 7 })
    rfl rfl (by decide)).1

/-- Witness for C7: a fresh room's creator-server is online and recently
seen, so the health check passes and leaves the room untouched. -/
theorem check_server_health_ok_witness :
    (Room.check_server_health (Room.new 100 ['R'] (User.new 1 ['A'] 10 0) Protocol.TCP 0) 0).2
      = Room.new 100 ['R'] (User.new 1 ['A'] 10 0) Protocol.TCP 0 :=
  (check_server_health_ok (Room.new 100 ['R'] (User.new 1 ['A'] 10 0) Protocol.TCP 0) 0).2.1
    (by decide)
